import Mathlib

/-!
Verification of the Computador toolchain (SPL compiler, assembler, loader,
memory / terminal bridge) against its natural-language specification.

Python sources are shallowly embedded as executable Lean definitions.
Strings are modelled as `List Char`; machine words as `Nat` / `Int` with
explicit `% 2^w` where overflow matters.  Components of the repository that
are not shipped under src/ (the `constants` module, the CPU/bus executor,
the external ISA tables) are modelled from the specification and are marked
as such in their doc comments.
-/

set_option maxRecDepth 4000

namespace Computador

/-! ## Decimal rendering and parsing helpers (embedding of Python `str(n)` / `int(s)`) -/

/-- Decimal digit character for `n < 10`. -/
def digitCh (n : Nat) : Char := Char.ofNat (48 + n)

/-- Fuel-driven accumulator loop for decimal rendering (structural recursion so
that concrete values evaluate inside the kernel). -/
def natDecAux : Nat → Nat → List Char → List Char
  | 0, _, acc => acc
  | fuel + 1, n, acc =>
    if n < 10 then digitCh n :: acc
    else natDecAux fuel (n / 10) (digitCh (n % 10) :: acc)

/-- Embedding of Python `str(n)` for a natural number: decimal digits. -/
def natDec (n : Nat) : List Char := natDecAux (n + 1) n []

/-- Embedding of Python `str(n)` for an integer (possible leading minus sign). -/
def intDec (i : Int) : List Char :=
  if i < 0 then '-' :: natDec i.natAbs else natDec i.toNat

/-- Numeric value of a decimal digit character. -/
def digitVal (c : Char) : Nat := c.toNat - 48

/-- Value of a list of decimal digit characters (most significant first). -/
def digitsVal (l : List Char) : Nat := l.foldl (fun a c => 10 * a + digitVal c) 0

theorem digitsVal_append (xs ys : List Char) :
    digitsVal (xs ++ ys) = ys.foldl (fun a c => 10 * a + digitVal c) (digitsVal xs) := by
  simp [digitsVal, List.foldl_append]

theorem digitVal_digitCh (n : Nat) (h : n < 10) : digitVal (digitCh n) = n := by
  interval_cases n <;> decide

/-- Reasoning-side companion of `natDec` (well-founded recursion, never
evaluated by the kernel). -/
def natDecW (n : Nat) : List Char :=
  if _h : n < 10 then [digitCh n]
  else natDecW (n / 10) ++ [digitCh (n % 10)]
decreasing_by
  exact Nat.div_lt_self (by omega) (by omega)

theorem natDecAux_eq_natDecW (fuel : Nat) :
    ∀ n acc, n < fuel → natDecAux fuel n acc = natDecW n ++ acc := by
  induction fuel with
  | zero => intro n acc h; omega
  | succ fuel ih =>
    intro n acc h
    by_cases h10 : n < 10
    · rw [natDecAux, if_pos h10, natDecW, dif_pos h10]
      rfl
    · rw [natDecAux, if_neg h10, natDecW, dif_neg h10]
      rw [ih (n / 10) _ (by omega)]
      simp

theorem natDec_eq_natDecW (n : Nat) : natDec n = natDecW n := by
  rw [natDec, natDecAux_eq_natDecW (n + 1) n [] (by omega)]
  simp

theorem digitsVal_natDec (n : Nat) : digitsVal (natDec n) = n := by
  rw [natDec_eq_natDecW]
  induction n using Nat.strong_induction_on with
  | _ n ih =>
    rw [natDecW]
    by_cases h : n < 10
    · rw [dif_pos h]
      simp [digitsVal, digitVal_digitCh n h]
    · rw [dif_neg h, digitsVal_append]
      have hrec := ih (n / 10) (Nat.div_lt_self (by omega) (by omega))
      simp [hrec, digitVal_digitCh (n % 10) (Nat.mod_lt _ (by omega))]
      omega

theorem natDec_ne_nil (n : Nat) : natDec n ≠ [] := by
  rw [natDec_eq_natDecW, natDecW]
  by_cases h : n < 10 <;> simp [h]

theorem mem_natDec_isDigit (n : Nat) : ∀ c ∈ natDec n, c.isDigit = true := by
  rw [natDec_eq_natDecW]
  induction n using Nat.strong_induction_on with
  | _ n ih =>
    intro c hc
    rw [natDecW] at hc
    by_cases h : n < 10
    · rw [dif_pos h] at hc
      simp at hc
      subst hc
      unfold digitCh
      interval_cases n <;> decide
    · rw [dif_neg h] at hc
      simp at hc
      rcases hc with hc | hc
      · exact ih (n / 10) (Nat.div_lt_self (by omega) (by omega)) c hc
      · subst hc
        unfold digitCh
        have hlt : n % 10 < 10 := Nat.mod_lt _ (by omega)
        interval_cases h10 : n % 10 <;> decide

/-! ## C1 — print lowering and the terminal write-notification decoder

Embedding of `p_stmt_print` (src/model/compilador/parser_spl.py, string-literal
arguments) and of `write_notify` (src/controller/terminal.py).
-/

/-- UTF-8 encoding of one character (embeds Python `str.encode('utf-8')`). -/
def utf8Bytes (c : Char) : List Nat :=
  let n := c.toNat
  if n < 128 then [n]
  else if n < 2048 then [192 + n / 64, 128 + n % 64]
  else if n < 65536 then [224 + n / 4096, 128 + n / 64 % 64, 128 + n % 64]
  else [240 + n / 262144, 128 + n / 4096 % 64, 128 + n / 64 % 64, 128 + n % 64]

def encodeUtf8 (s : List Char) : List Nat := (s.map utf8Bytes).flatten

/-- Split a byte list into chunks of 8, the last one right-padded with zeros:
embeds `bfull[i:i+8].ljust(8, b'\x00')` in `emit_string_no_nl`. -/
def chunk8 : List Nat → List (List Nat)
  | [] => []
  | b0 :: b1 :: b2 :: b3 :: b4 :: b5 :: b6 :: b7 :: rest =>
    [b0, b1, b2, b3, b4, b5, b6, b7] :: chunk8 rest
  | bs => [bs ++ List.replicate (8 - bs.length) 0]

/-- Little-endian value of a byte list: embeds `int.from_bytes(chunk, 'little')`. -/
def leVal (bs : List Nat) : Nat := bs.foldr (fun b acc => b + 256 * acc) 0

/-- The 64-bit data words emitted for one string literal by `emit_string_no_nl`
(each word is stored via a CARGA/GUARD pair to the I/O output address). -/
def printStringWords (s : List Char) : List Nat := (chunk8 (encodeUtf8 s)).map leVal

/-- The sequence of 64-bit values that the code compiled from a
`print(...)` statement with string-literal arguments stores at the I/O output
address, in program order.  `p_stmt_print` skips empty string literals and
finally stores the word `ord('\n') = 10` (the trailing-newline word). -/
def printStmtWords (args : List (List Char)) : List Nat :=
  ((args.map fun s => if s = [] then [] else printStringWords s).flatten) ++ [10]

/-- Byte `i` (little-endian) of a 64-bit value: embeds `int(v).to_bytes(8,'little')[i]`. -/
def byteI (v i : Nat) : Nat := v / 256 ^ i % 256

/-- Strip trailing zero bytes: embeds `b.rstrip(b"\x00")`. -/
def rstrip0 (l : List Nat) : List Nat := (l.reverse.dropWhile (fun b => b == 0)).reverse

/-- Decoder of `write_notify` (src/controller/terminal.py lines 36-96): turns one
64-bit value into the text appended to the per-address buffer, threading the
`_next_is_number` flag.  Returns `none` when the value is the numeric marker
(which is swallowed and only sets the flag). -/
def decodeNotify (nextIsNumber : Bool) (v : Nat) : Option (List Char) × Bool :=
  let b0 := byteI v 0
  let b7 := byteI v 7
  let bstr := rstrip0 [byteI v 0, byteI v 1, byteI v 2, byteI v 3,
                       byteI v 4, byteI v 5, byteI v 6, byteI v 7]
  if b0 = 255 ∧ byteI v 1 = 78 ∧ b7 = 2 then
    (none, true)
  else if nextIsNumber then
    (some (natDec v), false)
  else if b0 = 10 ∧ b7 = 1 ∧ byteI v 1 = 0 ∧ byteI v 2 = 0 ∧ byteI v 3 = 0 ∧
          byteI v 4 = 0 ∧ byteI v 5 = 0 ∧ byteI v 6 = 0 then
    (some ['\n'], false)
  else if bstr = [] then
    (some [], false)
  else if 1 < bstr.length then
    (if bstr.all (fun ch => ch == 9 || ch == 10 || ch == 13 || (32 ≤ ch && ch ≤ 126)) then
      some (bstr.map Char.ofNat)
    else
      some (natDec v), false)
  else
    match bstr with
    | [bv] => (if 32 ≤ bv ∧ bv ≤ 126 then some [Char.ofNat bv] else some (natDec v), false)
    | _ => (some (natDec v), false)

/-- The accumulated notification text for a sequence of 64-bit writes to one
I/O address.  The write buffer in terminal.py concatenates the decoded texts of
consecutive writes to the same address in program order before flushing them to
the host callback, so the delivered stream is this concatenation. -/
def notifyStream (vs : List Nat) : List Char :=
  (vs.foldl (fun st v =>
    let r := decodeNotify st.2 v
    (st.1 ++ r.1.getD [], r.2)) (([] : List Char), false)).1

/-- C1: the spec claims that for `print("hi")` the notification stream delivered
to the host reads exactly "hi" followed by a newline at the I/O output address.
The compiled program stores the chunk word for "hi" and then the trailing
newline word 10; but `write_notify` decodes the single non-printable byte 10 as
the decimal text "10" (its newline special case requires the marker value
`10 + 2^56`, which `p_stmt_print` never emits).  The delivered stream is
therefore "hi10", not "hi" followed by a newline: the code contradicts the
intent stated in its own comments, a code bug. -/
theorem C1_print_hi_stream_is_hi10 :
    notifyStream (printStmtWords [String.toList "hi"]) = String.toList "hi10" ∧
    notifyStream (printStmtWords [String.toList "hi"]) ≠ String.toList "hi\n" := by
  constructor
  · rfl
  · decide

/-! ## C10 — Memory.write validates before mutating

Embedding of `Memory.write` (src/model/procesador/memory.py lines 48-69).
The Python method mutates class-level state; the embedding threads the state
explicitly and returns the post-call state together with the raised error,
mirroring the statement order of the source: both validations happen before
the cell update and the modified-address bookkeeping.  The terminal
notification at the end is wrapped in try/except in the source and touches no
memory state, so it does not appear in the state. -/

/-- Modelled from the spec: `constants.py` is not under src/; §3 of the spec
fixes the memory at 2^24 words ("Array of 2^24 words (address width 24 bits)"). -/
def MEMORY_SIZE : Nat := 2 ^ 24

structure MemState where
  cells : Int → Nat
  memory_changed : List Int

/-- Embedding of `Memory.write`.  The `isinstance(value, np.uint64)` check is
modelled as the value being an unsigned 64-bit integer. -/
def memWrite (st : MemState) (direction : Int) (value : Int) :
    Except String Unit × MemState :=
  if ¬ (0 ≤ direction ∧ direction < (MEMORY_SIZE : Int)) then
    (.error "Direccion de memoria fuera de rango.", st)
  else if ¬ (0 ≤ value ∧ value < (2 : Int) ^ 64) then
    (.error "El valor debe ser de tipo np.uint64.", st)
  else
    (.ok (),
      { cells := fun a => if a = direction then value.toNat else st.cells a
        memory_changed :=
          if direction ∈ st.memory_changed then st.memory_changed
          else st.memory_changed ++ [direction] })

/-- C10: whenever `Memory.write` raises — address out of `[0, MEMORY_SIZE)` or
value not an unsigned 64-bit word — no cell is modified and `memory_changed`
is unchanged: all validation happens before any mutation. -/
theorem C10_memWrite_failed_leaves_state
    (st : MemState) (d v : Int)
    (h : ¬ (0 ≤ d ∧ d < (MEMORY_SIZE : Int)) ∨ ¬ (0 ≤ v ∧ v < (2 : Int) ^ 64)) :
    (memWrite st d v).2 = st ∧ ∃ msg, (memWrite st d v).1 = .error msg := by
  by_cases hd : 0 ≤ d ∧ d < (MEMORY_SIZE : Int)
  · have hv : ¬ (0 ≤ v ∧ v < (2 : Int) ^ 64) := by tauto
    unfold memWrite
    rw [if_neg (not_not_intro hd), if_pos hv]
    exact ⟨rfl, "El valor debe ser de tipo np.uint64.", rfl⟩
  · unfold memWrite
    rw [if_pos hd]
    exact ⟨rfl, "Direccion de memoria fuera de rango.", rfl⟩

theorem C10_memWrite_failed_leaves_state_witness :
    (memWrite ⟨fun _ => 0, []⟩ (2 ^ 24) 5).2 = (⟨fun _ => 0, []⟩ : MemState) ∧
    ∃ msg, (memWrite ⟨fun _ => 0, []⟩ (2 ^ 24) 5).1 = .error msg :=
  C10_memWrite_failed_leaves_state ⟨fun _ => 0, []⟩ (2 ^ 24) 5
    (Or.inl (by norm_num [MEMORY_SIZE]))

/-! ## C4 — reads from the I/O input range and the input queue

`Memory.read` (src/model/procesador/memory.py lines 26-46) pops the queue when
input is available; the blocking behaviour (`InputNeeded`) lives in the CPU /
bus executor, which is not shipped under src/ and is modelled from the spec.
`pop_input_uint64`, `has_input`, `push_input` and `encode_str_to_uint64` are
embedded from src/controller/terminal.py. -/

/-- Embedding of `has_input`. -/
def hasInput (q : List Int) : Bool := decide (0 < q.length)

/-- Embedding of `pop_input_uint64`: head of the queue, or 0 when empty. -/
def popInputUint64 (q : List Int) : Int × List Int :=
  match q with
  | [] => (0, [])
  | v :: r => (v, r)

/-- Embedding of Python `int(s, 10)`: optional sign, then at least one decimal
digit (the token has already been stripped of surrounding whitespace). -/
def parsePyIntDec (s : List Char) : Option Int :=
  match s with
  | '-' :: ds =>
    if ds ≠ [] ∧ ds.all Char.isDigit then some (-(digitsVal ds : Int)) else none
  | '+' :: ds =>
    if ds ≠ [] ∧ ds.all Char.isDigit then some (digitsVal ds : Int) else none
  | ds =>
    if ds ≠ [] ∧ ds.all Char.isDigit then some (digitsVal ds : Int) else none

/-- Whitespace trim: embeds Python `str.strip()`. -/
def trimWs (s : List Char) : List Char :=
  ((s.dropWhile Char.isWhitespace).reverse.dropWhile Char.isWhitespace).reverse

/-- Embedding of `encode_str_to_uint64`: decimal text becomes that integer,
otherwise the first up-to-8 UTF-8 bytes are packed little-endian. -/
def encodeStrToUint64 (s : List Char) : Int :=
  let t := trimWs s
  match (if t ≠ [] then parsePyIntDec t else none) with
  | some n => n
  | none =>
    (leVal ((encodeUtf8 s).take 8 ++ List.replicate (8 - (encodeUtf8 s).length) 0) : Int)

/-- Embedding of `push_input`: appends the encoded value to the queue. -/
def pushInput (s : List Char) (q : List Int) : List Int := q ++ [encodeStrToUint64 s]

/-- Wrap an integer to an unsigned 64-bit word: embeds `np.uint64(v)`. -/
def uint64wrap (v : Int) : Nat := (v % (2 : Int) ^ 64).toNat

/-- Embedding of `Memory.read`: in-range check, then — when the address lies in
the I/O range and input is queued — serve (and pop) the queue; otherwise return
the stored word.  The I/O range bounds come from the missing `constants`
module, so they are parameters here. -/
def memRead (esLo esHi : Nat) (cells : Int → Nat) (q : List Int) (direction : Int) :
    Except String (Nat × List Int) :=
  if ¬ (0 ≤ direction ∧ direction < (MEMORY_SIZE : Int)) then
    .error "Direccion de memoria fuera de rango."
  else if (esLo : Int) ≤ direction ∧ direction ≤ (esHi : Int) ∧ hasInput q then
    .ok (uint64wrap (popInputUint64 q).1, (popInputUint64 q).2)
  else
    .ok (cells direction, q)

/-- Modelled from the spec: the CPU executor / bus / `unidad_E_S` modules that
perform I/O reads are not under src/ (only `terminal.InputNeeded` and the
driver that catches it are).  Spec §5: a read from the I/O input region when
the input queue is empty raises `InputNeeded`; otherwise it consumes the head
of the queue. -/
def esExecRead (q : List Int) : Except String (Int × List Int) :=
  if hasInput q then .ok (popInputUint64 q) else .error "InputNeeded"

/-- C4: a read from the I/O input range returns the head of the input queue
(popping it) when the queue is non-empty — both in `Memory.read` and in the
spec-modelled executor read — raises `InputNeeded` when the queue is empty,
and after a subsequent push the re-executed read returns the pushed value. -/
theorem C4_es_read_pop_or_inputneeded
    (esLo esHi : Nat) (cells : Int → Nat) (q : List Int) (d : Int)
    (hd : (esLo : Int) ≤ d ∧ d ≤ (esHi : Int) ∧ 0 ≤ d ∧ d < (MEMORY_SIZE : Int)) :
    (∀ v r, q = v :: r → 0 ≤ v → v < (2 : Int) ^ 64 →
      memRead esLo esHi cells q d = .ok (v.toNat, r) ∧ esExecRead q = .ok (v, r)) ∧
    (q = [] → esExecRead q = .error "InputNeeded") ∧
    (∀ s, q = [] → esExecRead (pushInput s q) = .ok (encodeStrToUint64 s, [])) := by
  obtain ⟨h1, h2, h3, h4⟩ := hd
  refine ⟨?_, ?_, ?_⟩
  · rintro v r rfl hv0 hv64
    constructor
    · have hq : hasInput (v :: r) = true := by simp [hasInput]
      have hwrap : uint64wrap v = v.toNat := by
        unfold uint64wrap
        rw [Int.emod_eq_of_lt hv0 hv64]
      simp [memRead, h1, h2, h3, h4, hq, popInputUint64, hwrap]
    · simp [esExecRead, hasInput, popInputUint64]
  · rintro rfl
    simp [esExecRead, hasInput]
  · rintro s rfl
    simp [esExecRead, pushInput, hasInput, popInputUint64]

theorem C4_es_read_pop_or_inputneeded_witness :
    esExecRead ([] : List Int) = .error "InputNeeded" ∧
    esExecRead (pushInput (String.toList "42") []) = .ok (42, []) := by
  have h := C4_es_read_pop_or_inputneeded 2 3 (fun _ => 0) [] 2
    (by refine ⟨by norm_num, by norm_num, by norm_num, by norm_num [MEMORY_SIZE]⟩)
  refine ⟨h.2.1 rfl, ?_⟩
  have h2 := h.2.2 (String.toList "42") rfl
  rwa [show encodeStrToUint64 (String.toList "42") = 42 from by decide] at h2

/-! ## C8 — preprocessor `#define` substitution on identifier word boundaries

Embedding of the macro-expansion step of `preprocess`
(src/model/preprocesador/preprocessor.py lines 115-123):
`re.sub(r'\b' + re.escape(macro_name) + r'\b', macro_value, line)`.
A macro name matched by `(\w+)` consists of word characters only, so the
pattern matches an occurrence of the name whose neighbouring characters (if
any) are non-word characters.  `re.sub` scans left to right and resumes after
each replacement, matching always against the original text. -/

/-- Python regex `\w` (ASCII range, as used by identifiers in this project). -/
def isWordChar (c : Char) : Bool := c.isAlpha || c.isDigit || c = '_'

/-- Is the position after `prev` a `\b` boundary for a word-char-initial match? -/
def boundaryB : Option Char → Bool
  | none => true
  | some c => !(isWordChar c)

/-- Is the position before `rest` a `\b` boundary for a word-char-final match? -/
def boundaryA : List Char → Bool
  | [] => true
  | c :: _ => !(isWordChar c)

/-- The `re.sub` scanner: at each position try to match `name` with word
boundaries on both sides; on a match emit `value` and resume after the match
(the character before the resume point is the last character of `name`);
otherwise copy one character.  Structural on fuel so that concrete inputs
evaluate. -/
def substWBAux (name value : List Char) : Nat → Option Char → List Char → List Char
  | 0, _, _ => []
  | fuel + 1, prev, l =>
    match l with
    | [] => []
    | c :: cs =>
      if name ≠ [] ∧ name.isPrefixOf l ∧ boundaryB prev = true ∧
          boundaryA (l.drop name.length) = true then
        value ++ substWBAux name value fuel name.getLast? (l.drop name.length)
      else
        c :: substWBAux name value fuel (some c) cs

/-- Embedding of one `re.sub(r'\b'+re.escape(name)+r'\b', value, line)` call. -/
def substWB (name value line : List Char) : List Char :=
  substWBAux name value line.length none line

/-- Embedding of the macro-expansion loop over the accumulated defines
(`for macro_name, macro_value in defines.items()`, insertion order). -/
def expandLine (defines : List (List Char × List Char)) (line : List Char) : List Char :=
  defines.foldl (fun ln nv => substWB nv.1 nv.2 ln) line

/-- Specification-side tokenization, written from the claim: a line splits
into maximal runs of identifier word characters and single non-word
characters; an occurrence of the macro name "standing alone between identifier
word boundaries" is exactly a maximal word run equal to the name. -/
def tokenizeWBAux : Nat → List Char → List (List Char)
  | 0, _ => []
  | _ + 1, [] => []
  | fuel + 1, c :: cs =>
    if isWordChar c then
      (c :: cs.takeWhile isWordChar) :: tokenizeWBAux fuel (cs.dropWhile isWordChar)
    else
      [c] :: tokenizeWBAux fuel cs

def tokenizeWB (l : List Char) : List (List Char) := tokenizeWBAux l.length l

/-- Word-boundary substitution as described by the claim: replace exactly the
maximal word runs equal to the macro name. -/
def substWBSpec (name value l : List Char) : List Char :=
  ((tokenizeWB l).map fun t => if t = name then value else t).flatten

theorem substWBAux_nil (name value : List Char) (f : Nat) (prev : Option Char) :
    substWBAux name value f prev [] = [] := by
  cases f <;> rfl

theorem substWBAux_fuel_irrel (name value : List Char) :
    ∀ n : Nat, ∀ l : List Char, l.length = n → ∀ f f' : Nat, ∀ prev,
      n ≤ f → n ≤ f' →
      substWBAux name value f prev l = substWBAux name value f' prev l := by
  intro n
  induction n using Nat.strong_induction_on with
  | _ n ih =>
    intro l hl f f' prev hf hf'
    match l with
    | [] => rw [substWBAux_nil, substWBAux_nil]
    | c :: cs =>
      have hn : 0 < n := by simp at hl; omega
      obtain ⟨a, rfl⟩ : ∃ a, f = a + 1 := ⟨f - 1, by omega⟩
      obtain ⟨b, rfl⟩ : ∃ b, f' = b + 1 := ⟨f' - 1, by omega⟩
      simp only [substWBAux]
      by_cases hm : name ≠ [] ∧ name.isPrefixOf (c :: cs) ∧ boundaryB prev = true ∧
          boundaryA ((c :: cs).drop name.length) = true
      · rw [if_pos hm, if_pos hm]
        have hname : 0 < name.length := List.length_pos.mpr hm.1
        have hrest : ((c :: cs).drop name.length).length = (c :: cs).length - name.length := by
          simp
        rw [ih ((c :: cs).drop name.length).length (by simp at hl ⊢; omega) _ rfl
          a b name.getLast? (by simp at hl ⊢; omega) (by simp at hl ⊢; omega)]
      · rw [if_neg hm, if_neg hm]
        rw [ih cs.length (by simp at hl ⊢; omega) cs rfl
          a b (some c) (by simp at hl ⊢; omega) (by simp at hl ⊢; omega)]

theorem tokenizeWBAux_nil (f : Nat) : tokenizeWBAux f [] = [] := by
  cases f <;> rfl

theorem length_dropWhile_le_ch (p : Char → Bool) (l : List Char) :
    (l.dropWhile p).length ≤ l.length := by
  induction l with
  | nil => simp [List.dropWhile]
  | cons c cs ih =>
    by_cases h : p c
    · simp [List.dropWhile, h]
      omega
    · simp [List.dropWhile, h]

theorem tokenizeWBAux_fuel_irrel :
    ∀ n : Nat, ∀ l : List Char, l.length = n → ∀ f f' : Nat, n ≤ f → n ≤ f' →
      tokenizeWBAux f l = tokenizeWBAux f' l := by
  intro n
  induction n using Nat.strong_induction_on with
  | _ n ih =>
    intro l hl f f' hf hf'
    match l with
    | [] => rw [tokenizeWBAux_nil, tokenizeWBAux_nil]
    | c :: cs =>
      have hn : 0 < n := by simp at hl; omega
      obtain ⟨a, rfl⟩ : ∃ a, f = a + 1 := ⟨f - 1, by omega⟩
      obtain ⟨b, rfl⟩ : ∃ b, f' = b + 1 := ⟨f' - 1, by omega⟩
      simp only [tokenizeWBAux]
      by_cases hw : isWordChar c
      · rw [if_pos hw, if_pos hw]
        have hd := length_dropWhile_le_ch isWordChar cs
        rw [ih (cs.dropWhile isWordChar).length (by simp at hl ⊢; omega) _ rfl
          a b (by simp at hl ⊢; omega) (by simp at hl ⊢; omega)]
      · rw [if_neg hw, if_neg hw]
        rw [ih cs.length (by simp at hl ⊢; omega) cs rfl
          a b (by simp at hl ⊢; omega) (by simp at hl ⊢; omega)]

theorem tokenizeWB_cons_word (c : Char) (cs : List Char) (hw : isWordChar c = true) :
    tokenizeWB (c :: cs) =
      (c :: cs.takeWhile isWordChar) :: tokenizeWB (cs.dropWhile isWordChar) := by
  show tokenizeWBAux (cs.length + 1) (c :: cs) = _
  rw [tokenizeWBAux, if_pos hw]
  rw [tokenizeWBAux_fuel_irrel (cs.dropWhile isWordChar).length _ rfl cs.length _
    (length_dropWhile_le_ch _ _) (le_refl _)]
  rfl

theorem tokenizeWB_cons_nonword (c : Char) (cs : List Char) (hw : isWordChar c = false) :
    tokenizeWB (c :: cs) = [c] :: tokenizeWB cs := by
  show tokenizeWBAux (cs.length + 1) (c :: cs) = _
  rw [tokenizeWBAux, if_neg (by simp [hw])]
  rfl

/-- The head of `dropWhile isWordChar` (if any) is a non-word character. -/
theorem boundaryA_dropWhile (l : List Char) :
    boundaryA (l.dropWhile isWordChar) = true := by
  induction l with
  | nil => rfl
  | cons c cs ih =>
    by_cases h : isWordChar c
    · simpa [List.dropWhile, h] using ih
    · simp [List.dropWhile, h, boundaryA]

/-- An all-word-char pattern that is a prefix of `l` and is followed in `l` by
a word boundary is exactly the maximal word run of `l`. -/
theorem takeWhile_eq_of_boundary :
    ∀ name l : List Char, (∀ c ∈ name, isWordChar c = true) →
      name.isPrefixOf l = true → boundaryA (l.drop name.length) = true →
      l.takeWhile isWordChar = name := by
  intro name
  induction name with
  | nil =>
    intro l _ _ hb
    match l with
    | [] => rfl
    | c :: cs =>
      simp only [List.length_nil, List.drop_zero] at hb
      simp only [boundaryA, Bool.not_eq_true'] at hb
      simp [List.takeWhile_cons, hb]
  | cons a as ih =>
    intro l hw hp hb
    match l with
    | [] => simp [List.isPrefixOf] at hp
    | b :: bs =>
      simp only [List.isPrefixOf, Bool.and_eq_true, beq_iff_eq] at hp
      obtain ⟨rfl, hp2⟩ := hp
      have hwa : isWordChar a = true := hw a (by simp)
      simp only [List.length_cons, List.drop_succ_cons] at hb
      rw [List.takeWhile_cons, hwa]
      simp [ih bs (fun c hc => hw c (by simp [hc])) hp2 hb]

/-- Conversely, the maximal word run is a prefix of the line. -/
theorem run_isPrefixOf (l : List Char) :
    (l.takeWhile isWordChar).isPrefixOf l = true := by
  rw [List.isPrefixOf_iff_prefix]
  exact List.takeWhile_prefix isWordChar

theorem substWBSpec_nil (name value : List Char) : substWBSpec name value [] = [] := rfl

theorem substWBSpec_cons_nonword (name value : List Char) (c : Char) (cs : List Char)
    (hw : isWordChar c = false) (_hne : name ≠ [])
    (hword : ∀ ch ∈ name, isWordChar ch = true) :
    substWBSpec name value (c :: cs) = c :: substWBSpec name value cs := by
  unfold substWBSpec
  rw [tokenizeWB_cons_nonword c cs hw]
  have : ([c] ≠ name) := by
    intro h
    have := hword c (by rw [← h]; simp)
    rw [hw] at this
    exact Bool.false_ne_true this
  simp [this]

theorem substWBSpec_cons_word (name value : List Char) (c : Char) (cs : List Char)
    (hw : isWordChar c = true) :
    substWBSpec name value (c :: cs) =
      (if c :: cs.takeWhile isWordChar = name then value else c :: cs.takeWhile isWordChar)
        ++ substWBSpec name value (cs.dropWhile isWordChar) := by
  unfold substWBSpec
  rw [tokenizeWB_cons_word c cs hw]
  simp

/-- Main equivalence: the `re.sub` scanner with `\b`-boundaries replaces
exactly the maximal word runs equal to the macro name.  The second conjunct is
the induction-strengthening for positions inside a word run (previous
character is a word character): the current run is copied verbatim. -/
theorem substWBAux_spec (name value : List Char) (hne : name ≠ [])
    (hword : ∀ c ∈ name, isWordChar c = true) :
    ∀ n : Nat, ∀ l : List Char, l.length = n → ∀ prev : Option Char,
      (boundaryB prev = true →
        substWBAux name value l.length prev l = substWBSpec name value l) ∧
      (boundaryB prev = false →
        substWBAux name value l.length prev l =
          l.takeWhile isWordChar ++ substWBSpec name value (l.dropWhile isWordChar)) := by
  intro n
  induction n using Nat.strong_induction_on with
  | _ n ih =>
    intro l hl prev
    match l with
    | [] =>
      refine ⟨fun _ => ?_, fun _ => ?_⟩ <;> simp [substWBAux_nil, substWBSpec_nil]
    | c :: cs =>
      have hlen : cs.length < n := by simp at hl; omega
      by_cases hwc : isWordChar c
      case pos =>
        have htw : (c :: cs).takeWhile isWordChar = c :: cs.takeWhile isWordChar := by
          simp [List.takeWhile_cons, hwc]
        have hdwc : (c :: cs).dropWhile isWordChar = cs.dropWhile isWordChar := by
          simp [List.dropWhile_cons, hwc]
        -- head is a word character: the current maximal run starts here
        by_cases hrun : c :: cs.takeWhile isWordChar = name
        case pos =>
          -- the run equals the name
          constructor
          · intro hbnd
            -- boundary before: the scanner matches here
            have hpre : name.isPrefixOf (c :: cs) = true := by
              rw [← hrun, ← htw]
              exact run_isPrefixOf (c :: cs)
            have hdrop : (c :: cs).drop name.length = cs.dropWhile isWordChar := by
              conv_lhs => rw [← List.takeWhile_append_dropWhile (p := isWordChar)
                (l := c :: cs)]
              rw [show (c :: cs).takeWhile isWordChar = name from htw.trans hrun]
              rw [List.drop_left, hdwc]
            have hbA : boundaryA ((c :: cs).drop name.length) = true := by
              rw [hdrop]
              exact boundaryA_dropWhile cs
            show substWBAux name value (cs.length + 1) prev (c :: cs) = _
            simp only [substWBAux]
            rw [if_pos ⟨hne, hpre, hbnd, hbA⟩]
            have hlast : boundaryB name.getLast? = false := by
              have hgl := List.getLast?_eq_getLast name hne
              rw [hgl]
              simp only [boundaryB]
              rw [hword (name.getLast hne) (List.getLast_mem hne)]
              rfl
            have hrlen : ((c :: cs).drop name.length).length ≤ cs.length := by
              have : 0 < name.length := List.length_pos.mpr hne
              simp
              omega
            rw [substWBAux_fuel_irrel name value ((c :: cs).drop name.length).length _ rfl
              cs.length ((c :: cs).drop name.length).length name.getLast? hrlen (le_refl _)]
            have hrec := (ih ((c :: cs).drop name.length).length
              (by have : 0 < name.length := List.length_pos.mpr hne; simp at hl ⊢; omega)
              _ rfl name.getLast?).2 hlast
            rw [hrec]
            rw [hdrop]
            have hnw : (cs.dropWhile isWordChar).takeWhile isWordChar = [] := by
              have hb := boundaryA_dropWhile cs
              cases hd : cs.dropWhile isWordChar with
              | nil => rfl
              | cons d ds =>
                rw [hd] at hb
                simp only [boundaryA, Bool.not_eq_true'] at hb
                simp [List.takeWhile_cons, hb]
            have hdw : (cs.dropWhile isWordChar).dropWhile isWordChar =
                cs.dropWhile isWordChar := by
              have hb := boundaryA_dropWhile cs
              cases hd : cs.dropWhile isWordChar with
              | nil => rfl
              | cons d ds =>
                rw [hd] at hb
                simp only [boundaryA, Bool.not_eq_true'] at hb
                simp [List.dropWhile_cons, hb]
            rw [hnw, hdw, List.nil_append]
            rw [substWBSpec_cons_word name value c cs hwc, if_pos hrun]
          · intro hbnd
            -- previous char is a word char: no match at the head of the run
            show substWBAux name value (cs.length + 1) prev (c :: cs) = _
            simp only [substWBAux]
            rw [if_neg (by
              rintro ⟨-, -, hb, -⟩
              rw [hbnd] at hb
              exact Bool.false_ne_true hb)]
            have hrec := (ih cs.length hlen cs rfl (some c)).2
              (by simp [boundaryB, hwc])
            rw [hrec]
            rw [htw, hdwc]
            rfl
        case neg =>
          -- the run differs from the name: no match at this position either
          have hnomatch : ∀ pr, ¬ (name ≠ [] ∧ name.isPrefixOf (c :: cs) = true ∧
              boundaryB pr = true ∧ boundaryA ((c :: cs).drop name.length) = true) := by
            rintro pr ⟨-, hp, -, hA⟩
            exact hrun (by
              have := takeWhile_eq_of_boundary name (c :: cs) hword hp hA
              rw [← this, htw])
          have hcopy : substWBAux name value (c :: cs).length prev (c :: cs) =
              c :: (cs.takeWhile isWordChar ++
                substWBSpec name value (cs.dropWhile isWordChar)) := by
            show substWBAux name value (cs.length + 1) prev (c :: cs) = _
            simp only [substWBAux]
            rw [if_neg (by
              intro hc
              exact hnomatch prev ⟨hc.1, hc.2.1, hc.2.2.1, hc.2.2.2⟩)]
            have hrec := (ih cs.length hlen cs rfl (some c)).2
              (by simp [boundaryB, hwc])
            rw [hrec]
          constructor
          · intro _
            rw [hcopy]
            rw [substWBSpec_cons_word name value c cs hwc, if_neg hrun]
            simp
          · intro _
            rw [hcopy]
            rw [htw, hdwc]
            simp
      case neg =>
        -- head is a non-word character: never matches (the name starts with a
        -- word character), and the next position is at a boundary
        have hwc' : isWordChar c = false := by
          cases hh : isWordChar c
          · rfl
          · exact absurd hh hwc
        have hnomatch : ∀ pr, ¬ (name ≠ [] ∧ name.isPrefixOf (c :: cs) = true ∧
            boundaryB pr = true ∧ boundaryA ((c :: cs).drop name.length) = true) := by
          rintro pr ⟨hne2, hp, -, -⟩
          match name, hne2 with
          | a :: as, _ =>
            simp only [List.isPrefixOf, Bool.and_eq_true, beq_iff_eq] at hp
            obtain ⟨rfl, -⟩ := hp
            rw [hword a (by simp)] at hwc'
            exact absurd hwc' (by decide)
        have hcopy : substWBAux name value (c :: cs).length prev (c :: cs) =
            c :: substWBSpec name value cs := by
          show substWBAux name value (cs.length + 1) prev (c :: cs) = _
          simp only [substWBAux]
          rw [if_neg (by
            intro hc
            exact hnomatch prev ⟨hc.1, hc.2.1, hc.2.2.1, hc.2.2.2⟩)]
          have hrec := (ih cs.length hlen cs rfl (some c)).1
            (by simp [boundaryB, hwc'])
          rw [hrec]
        constructor
        · intro _
          rw [hcopy, substWBSpec_cons_nonword name value c cs hwc' hne hword]
        · intro _
          rw [hcopy]
          have h1 : (c :: cs).takeWhile isWordChar = [] := by
            simp [List.takeWhile_cons, hwc']
          have h2 : (c :: cs).dropWhile isWordChar = c :: cs := by
            simp [List.dropWhile_cons, hwc']
          rw [h1, h2, List.nil_append]
          rw [substWBSpec_cons_nonword name value c cs hwc' hne hword]

/-- C8: every identifier bound by `#define` is substituted at each later
occurrence that stands alone between identifier word boundaries, and an
occurrence that is a proper prefix of a longer identifier (such as NUM1 inside
NUM10) is never substituted: one `re.sub` pass over a line equals replacing
exactly the maximal identifier runs equal to the macro name. -/
theorem C8_define_subst_word_boundaries (name value line : List Char)
    (h1 : name ≠ []) (h2 : ∀ c ∈ name, isWordChar c = true) :
    substWB name value line = substWBSpec name value line :=
  (substWBAux_spec name value h1 h2 line.length line rfl none).1 rfl

theorem C8_define_subst_word_boundaries_witness :
    substWB (String.toList "NUM1") (String.toList "7") (String.toList "x = NUM1 + NUM10") =
      substWBSpec (String.toList "NUM1") (String.toList "7") (String.toList "x = NUM1 + NUM10") ∧
    substWB (String.toList "NUM1") (String.toList "7") (String.toList "x = NUM1 + NUM10") =
      String.toList "x = 7 + NUM10" :=
  ⟨C8_define_subst_word_boundaries (String.toList "NUM1") (String.toList "7")
      (String.toList "x = NUM1 + NUM10") (by decide) (by decide),
    by decide⟩

/-! ## C7 — the loader's 64-bit line check

Embedding of the per-line body of `Enlazador.link_load_machine_code`
(src/model/enlazador/enlazador.py lines 70-116).  The source counts the '0'
and '1' characters of the original line, substitutes the first `{decimal}`
placeholder (via `str.replace`, which replaces every occurrence of that exact
placeholder text) with the relocated address formatted as a binary string of
at least 24 digits, and — only inside the placeholder branch — checks that the
character count plus the inserted binary length equals 64.  The final
`bitarray(code_line)` conversion of the external bitarray library accepts any
string of '0'/'1' characters of any length and fails on other characters; the
bus write that follows is not part of the loader check.  `WORDS_SIZE_BITS`
comes from the missing `constants` module. -/

/-- Modelled from the spec: `constants.py` is not under src/; a word is 64 bits. -/
def WORDS_SIZE_BITS : Nat := 64

/-- Embedding of Python `int(s)` (base 10 with whitespace stripping). -/
def parsePyInt (s : List Char) : Option Int := parsePyIntDec (trimWs s)

/-- Fuel-driven binary rendering, same pattern as `natDecAux`. -/
def natBinAux : Nat → Nat → List Char → List Char
  | 0, _, acc => acc
  | fuel + 1, n, acc =>
    if n < 2 then digitCh n :: acc
    else natBinAux fuel (n / 2) (digitCh (n % 2) :: acc)

/-- Binary digits of `n` (no leading zeros; "0" for 0): Python `format(n, 'b')`. -/
def natBin (n : Nat) : List Char := natBinAux (n + 1) n []

/-- Left-pad with '0' to width `w`: Python `format(n, '0<w>b')` padding. -/
def padZeros (w : Nat) (l : List Char) : List Char :=
  List.replicate (w - l.length) '0' ++ l

/-- Replace every occurrence of `pat` in the scanned list by `repl`
(embedding of Python `str.replace`), fuel-driven. -/
def replaceAllAux (pat repl : List Char) : Nat → List Char → List Char
  | 0, _ => []
  | fuel + 1, l =>
    match l with
    | [] => []
    | c :: cs =>
      if pat ≠ [] ∧ pat.isPrefixOf l then
        repl ++ replaceAllAux pat repl fuel (l.drop pat.length)
      else
        c :: replaceAllAux pat repl fuel cs

def replaceAll (l pat repl : List Char) : List Char := replaceAllAux pat repl l.length l

/-- `code_line.count('0') + code_line.count('1')`. -/
def count01 (l : List Char) : Nat := l.count '0' + l.count '1'

/-- The text between the first ´{´ and the first ´}´ of the line
(`code_line[code_line.find('{')+1 : code_line.find('}')]`; Python slices with
end before start give the empty string). -/
def braceInner (line : List Char) : List Char :=
  (line.drop (line.indexOf '{' + 1)).take (line.indexOf '}' - (line.indexOf '{' + 1))

/-- Is the character a binary digit (accepted by `bitarray(...)`)? -/
def isBit (c : Char) : Bool := c == '0' || c == '1'

/-- Embedding of the loop body of `link_load_machine_code` for one image line:
bit counting, optional placeholder substitution with its 64-bit check, and the
bitarray character validation.  Returns the final line written to memory. -/
def linkLoadLine (address idx : Nat) (codeLine : List Char) : Except String (List Char) :=
  let bits0 := count01 codeLine
  if '{' ∈ codeLine ∧ '}' ∈ codeLine then
    let naturalStr := braceInner codeLine
    match parsePyInt naturalStr with
    | none => .error ("Linea " ++ String.mk (natDec idx) ++ ": valor no numerico natural")
    | some n =>
      if n < 0 then
        .error ("Linea " ++ String.mk (natDec idx) ++ ": valor no numerico natural")
      else
        let direccionBin := padZeros 24 (natBin (n.toNat + address))
        let newLine := replaceAll codeLine ('{' :: (naturalStr ++ ['}'])) direccionBin
        if bits0 + direccionBin.length ≠ WORDS_SIZE_BITS then
          .error ("Instruccion " ++ String.mk (natDec idx) ++ " no tiene 64 bits")
        else if newLine.all isBit then
          .ok newLine
        else
          .error "bitarray: caracter invalido"
  else
    if codeLine.all isBit then
      .ok codeLine
    else
      .error "bitarray: caracter invalido"

/-- C7 counterexample: a line of 63 '0' characters contains no placeholder, so
the loader performs no length check at all and loads it without error, even
though its bit length is 63 and not 64 — refuting the claim that the loader
raises for any line whose bit length differs from 64 whether or not the line
contains a placeholder. -/
theorem C7_counterexample_63_zero_line_loads :
    linkLoadLine 0 0 (List.replicate 63 '0') = .ok (List.replicate 63 '0') ∧
    (List.replicate 63 '0').length ≠ 64 := by
  constructor
  · rfl
  · decide

/-- C7 (amended): the 64-bit length check is applied only to lines containing
a placeholder (both ´{´ and ´}´ present): there the loader raises when the
count of '0'/'1' characters of the original line plus the length of the
substituted binary differs from 64.  A line without a placeholder is loaded
with no length check at all — only the '0'/'1'-character validation of the
word conversion. -/
theorem C7_amended_length_check_only_with_placeholder
    (address idx : Nat) (line : List Char) :
    (∀ n : Int, ('{' ∈ line ∧ '}' ∈ line) → parsePyInt (braceInner line) = some n →
      ¬ n < 0 →
      count01 line + (padZeros 24 (natBin (n.toNat + address))).length ≠ 64 →
      linkLoadLine address idx line =
        .error ("Instruccion " ++ String.mk (natDec idx) ++ " no tiene 64 bits")) ∧
    (¬ ('{' ∈ line ∧ '}' ∈ line) → line.all isBit = true →
      linkLoadLine address idx line = .ok line) := by
  constructor
  · intro n hbr hparse hn hbits
    unfold linkLoadLine
    rw [if_pos hbr]
    simp only [hparse]
    rw [if_neg hn]
    simp only [WORDS_SIZE_BITS]
    rw [if_pos hbits]
  · intro hbr hbits
    unfold linkLoadLine
    rw [if_neg hbr, if_pos hbits]

theorem C7_amended_length_check_only_with_placeholder_witness :
    linkLoadLine 0 0 (String.toList ("000000000000000000000000000000000000000" ++ "\x7b2\x7d")) =
      .error ("Instruccion " ++ String.mk (natDec 0) ++ " no tiene 64 bits") ∧
    linkLoadLine 0 0 (List.replicate 62 '1') = .ok (List.replicate 62 '1') := by
  constructor
  · exact (C7_amended_length_check_only_with_placeholder 0 0 _).1 2
      (by decide) (by decide) (by decide) (by decide)
  · exact (C7_amended_length_check_only_with_placeholder 0 0 _).2
      (by decide) (by decide)

/-! ## Assembler (C2, C3, C6)

Embedding of `assemble_text` / `assemble_line` / `ensure_para`
(src/model/ensamblador/assembler_from_as.py).  The mnemonic table is loaded
from external data files (opcodes.json / ISA.json) that are not part of src/,
so the table is a parameter: a list of (upper-case name, format length,
opcode bitstring) entries, looked up by exact name as in the Python dict.
The metadata (`result_addr`, `entry_index`) returned alongside the image is
not modelled: no claim refers to it and it does not influence the emitted
words. -/

/-- Separator class of `re.split('[,\s]+', line)`. -/
def isDelim (c : Char) : Bool := c == ',' || c.isWhitespace

/-- `[A-Za-z_]`. -/
def isIdentStart (c : Char) : Bool := c.isAlpha || c == '_'

/-- `[A-Za-z0-9_]`. -/
def isIdentChar (c : Char) : Bool := c.isAlpha || c.isDigit || c == '_'

/-- `re.compile(r"[A-Za-z_][A-Za-z0-9_]*$").fullmatch(tok)`. -/
def isIdent (t : List Char) : Bool :=
  match t with
  | [] => false
  | c :: cs => isIdentStart c && cs.all isIdentChar

/-- `[p.strip() for p in re.split('[,\s]+', line) if p.strip()]`: split on runs
of commas/whitespace, dropping empty pieces (structural accumulator scanner;
`cur` holds the current token reversed). -/
def splitPartsAux : List Char → List Char → List (List Char)
  | cur, [] => if cur = [] then [] else [cur.reverse]
  | cur, c :: cs =>
    if isDelim c then
      if cur = [] then splitPartsAux [] cs else cur.reverse :: splitPartsAux [] cs
    else
      splitPartsAux (c :: cur) cs

def splitParts (l : List Char) : List (List Char) := splitPartsAux [] l

/-- `' '.join(parts)`. -/
def joinSpace : List (List Char) → List Char
  | [] => []
  | [p] => p
  | p :: ps => p ++ ' ' :: joinSpace ps

/-- Strip trailing whitespace: Python `str.rstrip()`. -/
def rstripWs (l : List Char) : List Char :=
  (l.reverse.dropWhile Char.isWhitespace).reverse

/-- Prefix of the scanned list before the first occurrence of `pat`
(`raw.split(pat)[0]`), fuel-driven. -/
def takeBeforeAux (pat : List Char) : Nat → List Char → List Char
  | 0, _ => []
  | fuel + 1, l =>
    match l with
    | [] => []
    | c :: cs =>
      if pat ≠ [] ∧ pat.isPrefixOf l then [] else c :: takeBeforeAux pat fuel cs

def takeBefore (pat l : List Char) : List Char := takeBeforeAux pat l.length l

/-- `text.splitlines()` (newline-separated; a trailing newline yields no extra
empty line). -/
def splitLines (text : List Char) : List (List Char) :=
  if text = [] then []
  else if text.getLast? = some '\n' then (text.splitOn '\n').dropLast
  else text.splitOn '\n'

/-- `[raw.split('//')[0].split(';')[0].rstrip() for raw in text.splitlines()]`. -/
def rawLines (text : List Char) : List (List Char) :=
  (splitLines text).map fun raw => rstripWs (takeBefore [';'] (takeBefore ['/', '/'] raw))

/-- `line.startswith('.data')`. -/
def dataPrefix (line : List Char) : Bool := ['.', 'd', 'a', 't', 'a'].isPrefixOf line

/-- The symbol table built by pass 1, in insertion order. -/
abbrev LabelMap := List (List Char × Nat)

def lookupLabel (lm : LabelMap) (tok : List Char) : Option Nat :=
  (lm.find? fun e => e.1 == tok).map fun e => e.2

/-- Pass 1 of `assemble_text` (lines 144-162): build the symbol table, binding
each `label:` to the running instruction counter; `.data` lines advance the
counter by their number of values, other non-empty lines by one. -/
def pass1 (lm : LabelMap) (count : Nat) : List (List Char) → Except String (LabelMap × Nat)
  | [] => .ok (lm, count)
  | raw :: rest =>
    let line := trimWs raw
    if line = [] then pass1 lm count rest
    else if line.getLast? = some ':' then
      let lbl := trimWs line.dropLast
      if lbl = [] then .error "Empty label"
      else if (lookupLabel lm lbl).isSome then .error "Duplicate label"
      else pass1 (lm ++ [(lbl, count)]) count rest
    else if dataPrefix line then
      pass1 lm (count + ((splitParts line).length - 1)) rest
    else
      pass1 lm (count + 1) rest

/-- Digit value in a given base (2, 8, 10 or 16), accepting both letter cases. -/
def digitValBase (base : Nat) (c : Char) : Option Nat :=
  if c.isDigit then
    if digitVal c < base then some (digitVal c) else none
  else if 16 ≤ base ∧ 'a' ≤ c ∧ c ≤ 'f' then some (c.toNat - 87)
  else if 16 ≤ base ∧ 'A' ≤ c ∧ c ≤ 'F' then some (c.toNat - 55)
  else none

/-- Value of a non-empty digit string in the given base. -/
def digitsValBase (base : Nat) (ds : List Char) : Option Nat :=
  if ds = [] then none
  else
    ds.foldl
      (fun acc c =>
        match acc, digitValBase base c with
        | some a, some d => some (base * a + d)
        | _, _ => none)
      (some 0)

/-- A plain decimal digit string (no base prefix). -/
def pyDec (t : List Char) : Option Int :=
  if t ≠ [] ∧ t.all Char.isDigit then some ((digitsVal t : Nat) : Int) else none

/-- Embedding of Python `int(tok, 0)`: optional sign, then a 0x/0b/0o-prefixed
literal or a decimal literal.  Python rejects a decimal literal with a leading
zero unless all its digits are zero.  (Underscore digit separators are not
modelled.) -/
def parsePyInt0 (s : List Char) : Option Int :=
  let core : List Char → Option Int := fun t =>
    if t.take 2 = ['0', 'x'] ∨ t.take 2 = ['0', 'X'] then
      (digitsValBase 16 (t.drop 2)).map fun n => (n : Int)
    else if t.take 2 = ['0', 'b'] ∨ t.take 2 = ['0', 'B'] then
      (digitsValBase 2 (t.drop 2)).map fun n => (n : Int)
    else if t.take 2 = ['0', 'o'] ∨ t.take 2 = ['0', 'O'] then
      (digitsValBase 8 (t.drop 2)).map fun n => (n : Int)
    else if t.take 1 = ['0'] ∧ 2 ≤ t.length then
      (if (t.drop 1).all (fun c => c == '0') then some 0 else none)
    else pyDec t
  match s with
  | [] => pyDec []
  | c :: t =>
    if c = '-' then (core t).map fun v => -v
    else if c = '+' then core t
    else core (c :: t)

/-- The `0x → int(,16); 0b → int(,2); else int(,0)` ladder used for `.data`
values and immediates (`startswith` checks on the unsigned token). -/
def parseNumToken (tok : List Char) : Option Int :=
  if tok.take 2 = ['0', 'x'] ∨ tok.take 2 = ['0', 'X'] then
    (digitsValBase 16 (tok.drop 2)).map fun n => (n : Int)
  else if tok.take 2 = ['0', 'b'] ∨ tok.take 2 = ['0', 'B'] then
    (digitsValBase 2 (tok.drop 2)).map fun n => (n : Int)
  else parsePyInt0 tok

/-- Embedding of `to_nbits`: two's-complement wrap of the value into `bits`
binary digits.  (The source's final length check is dead code: the Python `&`
mask guarantees the formatted string has exactly `bits` digits.) -/
def toNbits (val : Int) (bits : Nat) : List Char :=
  padZeros bits (natBin (val % ((2 : Int) ^ bits)).toNat)

/-- Numeric value of a binary digit string (most significant first):
observation function used to read an operand field back out of a word. -/
def binVal (l : List Char) : Nat := l.foldl (fun a c => 2 * a + digitVal c) 0

/-- `re.compile(r"R(\d+)", re.IGNORECASE).fullmatch(tok)`. -/
def parseRegister (tok : List Char) : Option Nat :=
  match tok with
  | c :: ds =>
    if (c == 'R' || c == 'r') && (decide (ds ≠ []) && ds.all Char.isDigit) then
      some (digitsVal ds)
    else none
  | [] => none

/-- `re.compile(r"M\[(\d+)\]", re.IGNORECASE).fullmatch(tok)`. -/
def parseMemory (tok : List Char) : Option Nat :=
  match tok with
  | m :: '[' :: rest =>
    if (m == 'M' || m == 'm') && (rest.getLast? == some ']')
        && (decide (rest.dropLast ≠ []) && rest.dropLast.all Char.isDigit) then
      some (digitsVal rest.dropLast)
    else none
  | _ => none

/-- Mnemonic table entries: (upper-case name, format length, opcode bits).
The table itself is external data (opcodes.json / ISA.json). -/
abbrev MnemTable := List (String × String × List Char)

def lookupMnem (t : MnemTable) (m : String) : Option (String × List Char) :=
  (t.find? fun e => e.1 == m).map fun e => e.2

/-- The three 35-bit-format mnemonics that always require `R, M` operands. -/
def special35 (m : String) : Bool :=
  m == "CARGA" || m == "SIREGCERO" || m == "SIREGNCERO"

/-- Embedding of `assemble_line` of assembler_from_as.py on the token list of
the line (the source splits the line itself; see `assembleLineStr`). -/
def assembleLineParts (table : MnemTable) (lm : LabelMap) (parts : List (List Char)) :
    Except String (Option (List Char)) :=
  match parts with
  | [] => .ok none
  | p0 :: args =>
    let mnemonic := String.mk (p0.map Char.toUpper)
    match lookupMnem table mnemonic with
    | none => .error "Unknown mnemonic"
    | some (len, opcode) =>
      if len = "54" then
        match args with
        | a1 :: a2 :: _ =>
          match parseRegister a1, parseRegister a2 with
          | some r, some rp => .ok (some (opcode ++ toNbits r 5 ++ toNbits rp 5))
          | _, _ => .error "Invalid register token"
        | _ => .error "expects two register operands"
      else if len = "59" then
        match args with
        | a1 :: _ =>
          match parseRegister a1 with
          | some r => .ok (some (opcode ++ toNbits r 5))
          | none => .error "Invalid register token"
        | _ => .error "expects one register operand"
      else if len = "35" then
        if special35 mnemonic then
          match args with
          | a1 :: a2 :: _ =>
            match parseRegister a1, parseMemory a2 with
            | some r, some m => .ok (some (opcode ++ toNbits r 5 ++ toNbits m 24))
            | _, _ => .error "Invalid operand token"
          | _ => .error "expects R and M"
        else
          match args with
          | [a1] =>
            match parseMemory a1 with
            | some m => .ok (some (opcode ++ toNbits 0 5 ++ toNbits m 24))
            | none => .error "expects memory operand"
          | a1 :: a2 :: _ =>
            match parseRegister a1, parseMemory a2 with
            | some r, some m => .ok (some (opcode ++ toNbits r 5 ++ toNbits m 24))
            | _, _ => .error "Invalid operand token"
          | _ => .error "expects memory operand"
      else if len = "27" then
        match args with
        | a1 :: a2 :: _ =>
          match parseRegister a1 with
          | none => .error "Invalid register token"
          | some r =>
            match
              (match lookupLabel lm a2 with
               | some v => some ((v : Int))
               | none => parseNumToken a2) with
            | some v => .ok (some (opcode ++ toNbits r 5 ++ toNbits v 32))
            | none => .error "Invalid immediate value or unknown label"
        | _ => .error "expects R and immediate"
      else if len = "40" then
        match args with
        | a1 :: _ =>
          match
            (match parseMemory a1 with
             | some m => some ((m : Int))
             | none => parsePyInt0 a1) with
          | some m => .ok (some (opcode ++ toNbits m 24))
          | none => .error "invalid literal"
        | _ => .error "expects memory operand"
      else if len = "64" then
        .ok (some opcode)
      else
        .error "Unsupported instruction length"

/-- Embedding of `assemble_line` including its own strip / comment / split
preamble. -/
def assembleLineStr (table : MnemTable) (lm : LabelMap) (line : List Char) :
    Except String (Option (List Char)) :=
  let l := trimWs line
  if l = [] then .ok none
  else if l.take 1 = [';'] then .ok none
  else if l.take 2 = ['/', '/'] then .ok none
  else assembleLineParts table lm (splitParts l)

/-- Embedding of `replace_mem_label` (assembler_from_as.py lines 187-204):
resolve the inner text of one `M[...]` occurrence through the symbol table. -/
def matchIdentOffset (inner : List Char) : Option (List Char × Int) :=
  match inner with
  | c :: cs =>
    if isIdentStart c then
      let lbl := c :: cs.takeWhile isIdentChar
      let rest := cs.dropWhile isIdentChar
      match rest with
      | s :: ds =>
        if (s == '+' || s == '-') && (decide (ds ≠ []) && ds.all Char.isDigit) then
          some (lbl, if s == '-' then -((digitsVal ds : Nat) : Int) else ((digitsVal ds : Nat) : Int))
        else none
      | [] => none
    else none
  | [] => none

def resolveMemInner (lm : LabelMap) (inner : List Char) : List Char :=
  if '+' ∈ inner ∨ '-' ∈ inner then
    match matchIdentOffset inner with
    | none => 'M' :: '[' :: (inner ++ [']'])
    | some (lbl, off) =>
      match lookupLabel lm lbl with
      | some i => 'M' :: '[' :: (intDec ((i : Int) + off) ++ [']'])
      | none => 'M' :: '[' :: (inner ++ [']'])
  else
    match lookupLabel lm inner with
    | some i => 'M' :: '[' :: (natDec i ++ [']'])
    | none => 'M' :: '[' :: (inner ++ [']'])

/-- The `re.sub(r"M\[([^\]]+)\]", replace_mem_label, line)` scanner: at each
position, a (case-sensitive) `M[` followed by a non-empty bracket-free inner
text and `]` is resolved; otherwise one character is copied. -/
def rewriteMemAux (lm : LabelMap) : Nat → List Char → List Char
  | 0, _ => []
  | fuel + 1, l =>
    match l with
    | [] => []
    | 'M' :: '[' :: rest =>
      let inner := rest.takeWhile fun d => !(d == ']')
      if (']' ∈ rest) ∧ inner ≠ [] then
        resolveMemInner lm inner ++ rewriteMemAux lm fuel (rest.drop (inner.length + 1))
      else
        'M' :: rewriteMemAux lm fuel ('[' :: rest)
    | c :: cs => c :: rewriteMemAux lm fuel cs

def rewriteMemLabels (lm : LabelMap) (l : List Char) : List Char :=
  rewriteMemAux lm l.length l

/-- Bare-label substitution of one operand token (`if tok in label_map:
parts[i] = str(label_map[tok])`). -/
def bareSubstTok (lm : LabelMap) (tok : List Char) : List Char :=
  match lookupLabel lm tok with
  | some v => natDec v
  | none => tok

/-- Applied at operand positions 1 and 2 only (`for i in (1, 2)`). -/
def bareSubst (lm : LabelMap) (parts : List (List Char)) : List (List Char) :=
  parts.mapIdx fun i tok => if i = 1 ∨ i = 2 then bareSubstTok lm tok else tok

/-- `.data` emission: one 64-bit word per value. -/
def dataWords : List (List Char) → Except String (List (List Char))
  | [] => .ok []
  | dv :: rest =>
    match parseNumToken dv with
    | none => .error "invalid literal for int"
    | some v =>
      match dataWords rest with
      | .error e => .error e
      | .ok ws => .ok (toNbits v 64 :: ws)

/-- Pass-2 handling of one instruction line: memory-label rewriting, bare label
substitution at operand positions, re-join, `assemble_line`, and the final
64-bit check (`if inst:` skips a falsy — empty — result silently). -/
def instrLineWords (table : MnemTable) (lm : LabelMap) (line : List Char) :
    Except String (List (List Char)) :=
  let line1 := rewriteMemLabels lm line
  let parts := splitParts line1
  let parts2 := bareSubst lm parts
  let line2 := if parts2 = [] then line1 else joinSpace parts2
  match assembleLineStr table lm line2 with
  | .error e => .error e
  | .ok none => .ok []
  | .ok (some w) =>
    if w = [] then .ok []
    else if w.length ≠ 64 then .error "Assembled instruction not 64 bits"
    else .ok [w]

/-- Pass 2 of `assemble_text` (lines 164-238, metadata computation omitted). -/
def pass2 (table : MnemTable) (lm : LabelMap) : List (List Char) → Except String (List (List Char))
  | [] => .ok []
  | raw :: rest =>
    let line := trimWs raw
    if line = [] then pass2 table lm rest
    else if line.getLast? = some ':' then pass2 table lm rest
    else if dataPrefix line then
      match dataWords ((splitParts line).drop 1) with
      | .error e => .error e
      | .ok ws =>
        match pass2 table lm rest with
        | .error e => .error e
        | .ok rs => .ok (ws ++ rs)
    else
      match instrLineWords table lm line with
      | .error e => .error e
      | .ok ws =>
        match pass2 table lm rest with
        | .error e => .error e
        | .ok rs => .ok (ws ++ rs)

/-- Embedding of `ensure_para`: append the PARA opcode word when the image is
empty or does not already end with it (no-op when PARA is not in the table). -/
def ensurePara (table : MnemTable) (lines : List (List Char)) : List (List Char) :=
  match lookupMnem table "PARA" with
  | none => lines
  | some (_, bits) =>
    if lines = [] ∨ lines.getLast? ≠ some bits then lines ++ [bits] else lines

/-- Embedding of `assemble_text` (emitted words; metadata omitted). -/
def assembleText (table : MnemTable) (text : List Char) : Except String (List (List Char)) :=
  match pass1 [] 0 (rawLines text) with
  | .error e => .error e
  | .ok (lm, _) =>
    match pass2 table lm (rawLines text) with
    | .error e => .error e
    | .ok ws => .ok (ensurePara table ws)

/-- Modelled from the spec: the ISA tables (opcodes.json / ISA.json) are
external resources not under src/.  This sample table follows §3: opcode
prefix lengths among 64/54/59/35/27/40, with the stop instruction PARA as a
64-bit opcode-only word. -/
def sampleTable : MnemTable :=
  [ ("PARA", "64", List.replicate 64 '1'),
    ("SUMA", "54", '0' :: List.replicate 53 '1'),
    ("COMP", "54", '1' :: List.replicate 53 '0'),
    ("LIMP", "59", '0' :: '1' :: List.replicate 57 '0'),
    ("CARGA", "35", '0' :: List.replicate 34 '0'),
    ("GUARD", "35", '1' :: '1' :: List.replicate 33 '0'),
    ("ICARGA", "27", '0' :: '1' :: List.replicate 25 '1'),
    ("SALTA", "40", '1' :: List.replicate 39 '0') ]

/-! ### Round-trip lemmas for binary / decimal rendering and token parsing -/

/-- Reasoning-side companion of `natBin`. -/
def natBinW (n : Nat) : List Char :=
  if _h : n < 2 then [digitCh n]
  else natBinW (n / 2) ++ [digitCh (n % 2)]
decreasing_by
  exact Nat.div_lt_self (by omega) (by omega)

theorem natBinAux_eq_natBinW (fuel : Nat) :
    ∀ n acc, n < fuel → natBinAux fuel n acc = natBinW n ++ acc := by
  induction fuel with
  | zero => intro n acc h; omega
  | succ fuel ih =>
    intro n acc h
    by_cases h2 : n < 2
    · rw [natBinAux, if_pos h2, natBinW, dif_pos h2]
      rfl
    · rw [natBinAux, if_neg h2, natBinW, dif_neg h2]
      rw [ih (n / 2) _ (by omega)]
      simp

theorem natBin_eq_natBinW (n : Nat) : natBin n = natBinW n := by
  rw [natBin, natBinAux_eq_natBinW (n + 1) n [] (by omega)]
  simp

theorem binVal_append (xs ys : List Char) :
    binVal (xs ++ ys) = ys.foldl (fun a c => 2 * a + digitVal c) (binVal xs) := by
  simp [binVal, List.foldl_append]

theorem binVal_natBin (n : Nat) : binVal (natBin n) = n := by
  rw [natBin_eq_natBinW]
  induction n using Nat.strong_induction_on with
  | _ n ih =>
    rw [natBinW]
    by_cases h : n < 2
    · rw [dif_pos h]
      interval_cases n <;> decide
    · rw [dif_neg h, binVal_append]
      have hrec := ih (n / 2) (Nat.div_lt_self (by omega) (by omega))
      simp [hrec, digitVal_digitCh (n % 2) (by omega : n % 2 < 10)]
      omega

theorem natBinW_length_le :
    ∀ n w, 0 < w → n < 2 ^ w → (natBinW n).length ≤ w := by
  intro n
  induction n using Nat.strong_induction_on with
  | _ n ih =>
    intro w hw hn
    rw [natBinW]
    by_cases h : n < 2
    · rw [dif_pos h]
      simpa using hw
    · rw [dif_neg h]
      have hw2 : 2 ≤ w := by
        by_contra hc
        have hw1 : w = 1 := by omega
        rw [hw1] at hn
        omega
      have hpow : 2 ^ w = 2 ^ (w - 1) * 2 := by
        rw [← pow_succ]
        congr 1
        omega
      have hdiv : n / 2 < 2 ^ (w - 1) := by omega
      have := ih (n / 2) (Nat.div_lt_self (by omega) (by omega)) (w - 1) (by omega) hdiv
      simp only [List.length_append, List.length_cons, List.length_nil]
      omega

theorem natBin_length_le (n w : Nat) (hw : 0 < w) (hn : n < 2 ^ w) :
    (natBin n).length ≤ w := by
  rw [natBin_eq_natBinW]
  exact natBinW_length_le n w hw hn

theorem binVal_cons_zero (t : List Char) : binVal ('0' :: t) = binVal t := rfl

theorem binVal_replicate_zero (k : Nat) (l : List Char) :
    binVal (List.replicate k '0' ++ l) = binVal l := by
  induction k with
  | zero => simp
  | succ k ih =>
    rw [List.replicate_succ, List.cons_append, binVal_cons_zero, ih]

theorem binVal_padZeros (w : Nat) (l : List Char) : binVal (padZeros w l) = binVal l := by
  unfold padZeros
  exact binVal_replicate_zero _ _

theorem padZeros_length (w : Nat) (l : List Char) (h : l.length ≤ w) :
    (padZeros w l).length = w := by
  unfold padZeros
  simp
  omega

theorem toNbits_length (v : Int) (w : Nat) (hw : 0 < w) : (toNbits v w).length = w := by
  unfold toNbits
  have hpos : (0 : Int) < 2 ^ w := by positivity
  have h1 : 0 ≤ v % 2 ^ w := Int.emod_nonneg v (by positivity)
  have h2 : v % 2 ^ w < 2 ^ w := Int.emod_lt_of_pos v hpos
  have h3 : (v % 2 ^ w).toNat < 2 ^ w := by
    have : ((v % 2 ^ w).toNat : Int) < (2 : Int) ^ w := by
      rwa [Int.toNat_of_nonneg h1]
    exact_mod_cast this
  exact padZeros_length _ _ (natBin_length_le _ _ hw h3)

theorem binVal_toNbits (m w : Nat) (h : m < 2 ^ w) :
    binVal (toNbits (m : Int) w) = m := by
  unfold toNbits
  have hmod : (m : Int) % 2 ^ w = (m : Int) := by
    apply Int.emod_eq_of_lt (by positivity)
    exact_mod_cast h
  rw [hmod, binVal_padZeros]
  rw [show ((m : Int)).toNat = m from Int.toNat_ofNat m]
  exact binVal_natBin m

theorem isDigit_ne_minus (c : Char) (h : c.isDigit = true) : ¬ c = '-' := by
  intro he
  rw [he] at h
  exact absurd h (by decide)

theorem isDigit_ne_plus (c : Char) (h : c.isDigit = true) : ¬ c = '+' := by
  intro he
  rw [he] at h
  exact absurd h (by decide)

/-- The decimal rendering of a number ≥ 1 never starts with '0'. -/
theorem natDecW_head_ne_zero :
    ∀ n, 1 ≤ n → ∃ d ds, natDecW n = d :: ds ∧ ¬ d = '0' := by
  intro n
  induction n using Nat.strong_induction_on with
  | _ n ih =>
    intro hn
    rw [natDecW]
    by_cases h : n < 10
    · rw [dif_pos h]
      refine ⟨digitCh n, [], rfl, ?_⟩
      interval_cases n <;> decide
    · rw [dif_neg h]
      obtain ⟨d, ds, hd, hd0⟩ := ih (n / 10) (Nat.div_lt_self (by omega) (by omega)) (by omega)
      exact ⟨d, ds ++ [digitCh (n % 10)], by rw [hd]; rfl, hd0⟩

theorem pyDec_natDec (n : Nat) : pyDec (natDec n) = some ((n : Nat) : Int) := by
  unfold pyDec
  rw [if_pos ⟨natDec_ne_nil n, by
    rw [List.all_eq_true]
    exact mem_natDec_isDigit n⟩]
  rw [digitsVal_natDec]

theorem parsePyInt0_natDec (n : Nat) : parsePyInt0 (natDec n) = some ((n : Nat) : Int) := by
  obtain ⟨d, ds, hcons⟩ : ∃ d ds, natDec n = d :: ds := by
    cases hh : natDec n with
    | nil => exact absurd hh (natDec_ne_nil n)
    | cons d ds => exact ⟨d, ds, rfl⟩
  have hdigit : d.isDigit = true := mem_natDec_isDigit n d (by rw [hcons]; simp)
  have hd0 : n = 0 ∨ ¬ d = '0' ∨ ds = [] := by
    by_cases h10 : n < 10
    · right; right
      have : natDec n = [digitCh n] := by
        rw [natDec_eq_natDecW, natDecW, dif_pos h10]
      rw [this] at hcons
      exact (List.cons.injEq _ _ _ _).mp hcons |>.2.symm
    · right; left
      obtain ⟨d2, ds2, hd2, hne0⟩ := natDecW_head_ne_zero n (by omega)
      rw [natDec_eq_natDecW, hd2] at hcons
      have := (List.cons.injEq _ _ _ _).mp hcons
      rw [← this.1]
      exact hne0
  unfold parsePyInt0
  rw [hcons]
  simp only
  rw [if_neg (isDigit_ne_minus d hdigit), if_neg (isDigit_ne_plus d hdigit)]
  -- the core ladder: the token never carries a base prefix and has no
  -- forbidden leading zero
  have hprefix : ∀ x : Char, ¬ ((d :: ds).take 2 = ['0', x]) ∨ (¬ x.isDigit) → True := by
    intro _ _; trivial
  have htake2 : ∀ x : Char, x.isDigit = false → ¬ ((d :: ds).take 2 = ['0', x]) := by
    intro x hx heq
    cases ds with
    | nil => simp at heq
    | cons e es =>
      simp at heq
      have he : e.isDigit = true := mem_natDec_isDigit n e (by rw [hcons]; simp)
      rw [heq.2] at he
      rw [hx] at he
      exact absurd he (by decide)
  rw [if_neg (by
    rintro (h | h)
    · exact htake2 'x' (by decide) h
    · exact htake2 'X' (by decide) h)]
  rw [if_neg (by
    rintro (h | h)
    · exact htake2 'b' (by decide) h
    · exact htake2 'B' (by decide) h)]
  rw [if_neg (by
    rintro (h | h)
    · exact htake2 'o' (by decide) h
    · exact htake2 'O' (by decide) h)]
  rw [if_neg (by
    rintro ⟨h1, h2⟩
    rcases hd0 with h0 | hne | hnil
    · subst h0
      have : natDec 0 = ['0'] := by decide
      rw [this] at hcons
      have := (List.cons.injEq _ _ _ _).mp hcons
      rw [← this.2] at h2
      simp at h2
    · simp at h1
      exact hne h1
    · subst hnil
      simp at h2)]
  rw [← hcons, pyDec_natDec]

theorem parseNumToken_natDec (n : Nat) : parseNumToken (natDec n) = some ((n : Nat) : Int) := by
  obtain ⟨d, ds, hcons⟩ : ∃ d ds, natDec n = d :: ds := by
    cases hh : natDec n with
    | nil => exact absurd hh (natDec_ne_nil n)
    | cons d ds => exact ⟨d, ds, rfl⟩
  have htake2 : ∀ x : Char, x.isDigit = false → ¬ ((natDec n).take 2 = ['0', x]) := by
    intro x hx heq
    rw [hcons] at heq
    cases ds with
    | nil => simp at heq
    | cons e es =>
      simp at heq
      have he : e.isDigit = true := mem_natDec_isDigit n e (by rw [hcons]; simp)
      rw [heq.2] at he
      rw [hx] at he
      exact absurd he (by decide)
  unfold parseNumToken
  rw [if_neg (by
    rintro (h | h)
    · exact htake2 'x' (by decide) h
    · exact htake2 'X' (by decide) h)]
  rw [if_neg (by
    rintro (h | h)
    · exact htake2 'b' (by decide) h
    · exact htake2 'B' (by decide) h)]
  exact parsePyInt0_natDec n

theorem parseRegister_natDec (r : Nat) : parseRegister ('R' :: natDec r) = some r := by
  show (if (('R' == 'R' || 'R' == 'r') && (decide (natDec r ≠ []) && (natDec r).all Char.isDigit)) = true
    then some (digitsVal (natDec r)) else none) = some r
  rw [if_pos (by
    refine (Bool.and_eq_true _ _).mpr ⟨by decide, (Bool.and_eq_true _ _).mpr ⟨?_, ?_⟩⟩
    · simp [natDec_ne_nil r]
    · rw [List.all_eq_true]
      exact mem_natDec_isDigit r)]
  rw [digitsVal_natDec]

theorem parseMemory_natDec (m : Nat) :
    parseMemory ('M' :: '[' :: (natDec m ++ [']'])) = some m := by
  have hlast : (natDec m ++ [']']).getLast? = some ']' := by
    rw [List.getLast?_append_of_ne_nil _ (by simp)]
    rfl
  have hdl : (natDec m ++ [']']).dropLast = natDec m := by
    rw [List.dropLast_append_of_ne_nil _ (by simp)]
    simp
  show (if (('M' == 'M' || 'M' == 'm') && ((natDec m ++ [']']).getLast? == some ']')
      && (decide ((natDec m ++ [']']).dropLast ≠ []) && (natDec m ++ [']']).dropLast.all Char.isDigit)) = true
    then some (digitsVal (natDec m ++ [']']).dropLast) else none) = some m
  rw [if_pos (by
    rw [hlast, hdl]
    refine (Bool.and_eq_true _ _).mpr ⟨(Bool.and_eq_true _ _).mpr ⟨by decide, by decide⟩,
      (Bool.and_eq_true _ _).mpr ⟨?_, ?_⟩⟩
    · simp [natDec_ne_nil m]
    · rw [List.all_eq_true]
      exact mem_natDec_isDigit m)]
  rw [hdl, digitsVal_natDec]

theorem intDec_ofNat (n : Nat) : intDec ((n : Nat) : Int) = natDec n := by
  unfold intDec
  rw [if_neg (by omega)]
  simp

/-! ### C3 — label resolution into operand fields -/

theorem takeWhile_all_append {p : Char → Bool} :
    ∀ xs : List Char, ∀ y ys, (∀ c ∈ xs, p c = true) → p y = false →
      (xs ++ y :: ys).takeWhile p = xs ∧ (xs ++ y :: ys).dropWhile p = y :: ys := by
  intro xs
  induction xs with
  | nil =>
    intro y ys _ hy
    simp [List.takeWhile_cons, List.dropWhile_cons, hy]
  | cons a as ih =>
    intro y ys hall hy
    have ha : p a = true := hall a (by simp)
    have := ih y ys (fun c hc => hall c (by simp [hc])) hy
    simp only [List.cons_append, List.takeWhile_cons, List.dropWhile_cons, ha]
    simp [this.1, this.2]

theorem natDec_all_digits (k : Nat) : (natDec k).all Char.isDigit = true := by
  rw [List.all_eq_true]
  exact mem_natDec_isDigit k

theorem isIdent_no_sign (L : List Char) (h : isIdent L = true) : ¬ '+' ∈ L ∧ ¬ '-' ∈ L := by
  match L with
  | [] => exact absurd h (by decide)
  | c :: cs =>
    simp only [isIdent, Bool.and_eq_true, List.all_eq_true] at h
    obtain ⟨hc, hcs⟩ := h
    constructor
    · intro hm
      rcases List.mem_cons.mp hm with rfl | hm
      · exact absurd hc (by decide)
      · exact absurd (hcs _ hm) (by decide)
    · intro hm
      rcases List.mem_cons.mp hm with rfl | hm
      · exact absurd hc (by decide)
      · exact absurd (hcs _ hm) (by decide)

theorem matchIdentOffset_plus (L : List Char) (k : Nat) (h : isIdent L = true) :
    matchIdentOffset (L ++ '+' :: natDec k) = some (L, ((k : Nat) : Int)) := by
  match L with
  | [] => exact absurd h (by decide)
  | c :: cs =>
    simp only [isIdent, Bool.and_eq_true, List.all_eq_true] at h
    obtain ⟨hc, hcs⟩ := h
    have htw := takeWhile_all_append (p := isIdentChar) cs '+' (natDec k)
      (fun d hd => hcs d hd) (by decide)
    show matchIdentOffset (c :: (cs ++ '+' :: natDec k)) = _
    simp [matchIdentOffset, hc, htw.1, htw.2, natDec_ne_nil k, natDec_all_digits k,
      digitsVal_natDec]

theorem matchIdentOffset_minus (L : List Char) (k : Nat) (h : isIdent L = true) :
    matchIdentOffset (L ++ '-' :: natDec k) = some (L, -((k : Nat) : Int)) := by
  match L with
  | [] => exact absurd h (by decide)
  | c :: cs =>
    simp only [isIdent, Bool.and_eq_true, List.all_eq_true] at h
    obtain ⟨hc, hcs⟩ := h
    have htw := takeWhile_all_append (p := isIdentChar) cs '-' (natDec k)
      (fun d hd => hcs d hd) (by decide)
    show matchIdentOffset (c :: (cs ++ '-' :: natDec k)) = _
    simp [matchIdentOffset, hc, htw.1, htw.2, natDec_ne_nil k, natDec_all_digits k,
      digitsVal_natDec]

theorem resolveMemInner_bare (lm : LabelMap) (L : List Char) (i : Nat)
    (hident : isIdent L = true) (hL : lookupLabel lm L = some i) :
    resolveMemInner lm L = 'M' :: '[' :: (natDec i ++ [']']) := by
  obtain ⟨hp, hm⟩ := isIdent_no_sign L hident
  unfold resolveMemInner
  rw [if_neg (by
    rintro (h | h)
    · exact hp h
    · exact hm h)]
  simp [hL]

theorem resolveMemInner_plus (lm : LabelMap) (L : List Char) (i k : Nat)
    (hident : isIdent L = true) (hL : lookupLabel lm L = some i) :
    resolveMemInner lm (L ++ '+' :: natDec k) =
      'M' :: '[' :: (intDec ((i : Int) + (k : Int)) ++ [']']) := by
  unfold resolveMemInner
  rw [if_pos (Or.inl (List.mem_append.mpr (Or.inr (by simp))))]
  simp [matchIdentOffset_plus L k hident, hL]

theorem resolveMemInner_minus (lm : LabelMap) (L : List Char) (i k : Nat)
    (hident : isIdent L = true) (hL : lookupLabel lm L = some i) :
    resolveMemInner lm (L ++ '-' :: natDec k) =
      'M' :: '[' :: (intDec ((i : Int) - (k : Int)) ++ [']']) := by
  unfold resolveMemInner
  rw [if_pos (Or.inr (List.mem_append.mpr (Or.inr (by simp))))]
  simp [matchIdentOffset_minus L k hident, hL]
  rw [show (i : Int) + -(k : Int) = (i : Int) - (k : Int) from by ring]

theorem assembleLineParts_35 (table : MnemTable) (lm : LabelMap)
    (p0 : List Char) (opc : List Char) (r m : Nat)
    (h : lookupMnem table (String.mk (p0.map Char.toUpper)) = some ("35", opc)) :
    assembleLineParts table lm [p0, 'R' :: natDec r, 'M' :: '[' :: (natDec m ++ [']'])] =
      .ok (some (opc ++ toNbits (r : Int) 5 ++ toNbits (m : Int) 24)) := by
  simp [assembleLineParts, h, parseRegister_natDec, parseMemory_natDec]

theorem assembleLineParts_27 (table : MnemTable) (lm : LabelMap)
    (p0 : List Char) (opc : List Char) (r i : Nat)
    (h : lookupMnem table (String.mk (p0.map Char.toUpper)) = some ("27", opc))
    (hnodig : lookupLabel lm (natDec i) = none) :
    assembleLineParts table lm [p0, 'R' :: natDec r, natDec i] =
      .ok (some (opc ++ toNbits (r : Int) 5 ++ toNbits ((i : Nat) : Int) 32)) := by
  simp [assembleLineParts, h, parseRegister_natDec, hnodig, parseNumToken_natDec]

/-- C3: for every label L declared in the source and every operand referencing
L — bare, `M[L]`, `M[L+k]` or `M[L-k]` — the numeric value placed into the
rewritten operand and then encoded into the instruction operand field equals
the instruction index bound to L by pass 1 (offset by ±k).  Conjuncts: the
three forms of `replace_mem_label` resolution; the bare-operand substitution;
and the encoding of the resolved value into the 24-bit memory field (35
format) and the 32-bit immediate field (27 format), whose binary fields read
back as exactly the resolved value when it fits the field. -/
theorem C3_label_operands_resolve_to_declaration_index
    (lm : LabelMap) (L : List Char) (i k : Nat)
    (hident : isIdent L = true) (hL : lookupLabel lm L = some i) :
    resolveMemInner lm L = 'M' :: '[' :: (natDec i ++ [']']) ∧
    resolveMemInner lm (L ++ '+' :: natDec k) =
      'M' :: '[' :: (natDec (i + k) ++ [']']) ∧
    resolveMemInner lm (L ++ '-' :: natDec k) =
      'M' :: '[' :: (intDec ((i : Int) - (k : Int)) ++ [']']) ∧
    bareSubstTok lm L = natDec i ∧
    (∀ table p0 opc r, i + k < 2 ^ 24 →
      lookupMnem table (String.mk (p0.map Char.toUpper)) = some ("35", opc) →
      assembleLineParts table lm [p0, 'R' :: natDec r, 'M' :: '[' :: (natDec (i + k) ++ [']'])] =
        .ok (some (opc ++ toNbits (r : Int) 5 ++ toNbits ((i + k : Nat) : Int) 24)) ∧
      binVal (toNbits ((i + k : Nat) : Int) 24) = i + k) ∧
    (∀ table p0 opc r, i < 2 ^ 32 →
      lookupMnem table (String.mk (p0.map Char.toUpper)) = some ("27", opc) →
      lookupLabel lm (natDec i) = none →
      assembleLineParts table lm [p0, 'R' :: natDec r, natDec i] =
        .ok (some (opc ++ toNbits (r : Int) 5 ++ toNbits ((i : Nat) : Int) 32)) ∧
      binVal (toNbits ((i : Nat) : Int) 32) = i) := by
  refine ⟨resolveMemInner_bare lm L i hident hL, ?_, ?_, ?_, ?_, ?_⟩
  · rw [resolveMemInner_plus lm L i k hident hL]
    rw [show (i : Int) + (k : Int) = ((i + k : Nat) : Int) from by push_cast; ring]
    rw [intDec_ofNat]
  · exact resolveMemInner_minus lm L i k hident hL
  · unfold bareSubstTok
    rw [hL]
  · intro table p0 opc r hfit hlook
    exact ⟨assembleLineParts_35 table lm p0 opc r (i + k) hlook,
      binVal_toNbits (i + k) 24 hfit⟩
  · intro table p0 opc r hfit hlook hnodig
    exact ⟨assembleLineParts_27 table lm p0 opc r i hlook hnodig,
      binVal_toNbits i 32 hfit⟩

theorem C3_label_operands_resolve_witness :
    resolveMemInner [(String.toList "loop", 3)] (String.toList "loop") = String.toList "M[3]" ∧
    resolveMemInner [(String.toList "loop", 3)] (String.toList "loop+2") = String.toList "M[5]" ∧
    resolveMemInner [(String.toList "loop", 3)] (String.toList "loop-5") = String.toList "M[-2]" ∧
    bareSubstTok [(String.toList "loop", 3)] (String.toList "loop") = String.toList "3" ∧
    assembleLineParts sampleTable [(String.toList "loop", 3)]
        [String.toList "GUARD", String.toList "R6", String.toList "M[5]"] =
      .ok (some (('1' :: '1' :: List.replicate 33 '0') ++ toNbits 6 5 ++ toNbits 5 24)) ∧
    binVal (toNbits 5 24) = 5 := by
  have h := C3_label_operands_resolve_to_declaration_index
    [(String.toList "loop", 3)] (String.toList "loop") 3 2 (by decide) (by decide)
  refine ⟨?_, ?_, ?_, ?_, ?_, ?_⟩
  · have := h.1
    rw [this]
    decide
  · have := h.2.1
    rw [show String.toList "loop+2" =
        String.toList "loop" ++ '+' :: natDec 2 from by decide] at *
    rw [this]
    decide
  · have h5 := C3_label_operands_resolve_to_declaration_index
      [(String.toList "loop", 3)] (String.toList "loop") 3 5 (by decide) (by decide)
    rw [show String.toList "loop-5" =
        String.toList "loop" ++ '-' :: natDec 5 from by decide]
    rw [h5.2.2.1]
    decide
  · rw [h.2.2.2.1]
    decide
  · have h35 := (h.2.2.2.2.1 sampleTable (String.toList "GUARD")
      ('1' :: '1' :: List.replicate 33 '0') 6 (by decide) (by decide)).1
    rw [show String.toList "M[5]" = 'M' :: '[' :: (natDec (3 + 2) ++ [']']) from by decide]
    rw [show String.toList "R6" = 'R' :: natDec 6 from by decide]
    exact h35
  · decide

/-! ### C6 — PARA terminator -/

theorem ensurePara_getLast (table : MnemTable) (len : String) (bits : List Char)
    (hpara : lookupMnem table "PARA" = some (len, bits)) (pre : List (List Char)) :
    ensurePara table pre =
      (if pre ≠ [] ∧ pre.getLast? = some bits then pre else pre ++ [bits]) ∧
    (ensurePara table pre).getLast? = some bits ∧ ensurePara table pre ≠ [] := by
  have hep : ensurePara table pre =
      if pre = [] ∨ pre.getLast? ≠ some bits then pre ++ [bits] else pre := by
    unfold ensurePara
    rw [hpara]
  by_cases hc : pre = [] ∨ pre.getLast? ≠ some bits
  · rw [hep, if_pos hc]
    refine ⟨?_, ?_, by simp⟩
    · rw [if_neg (by
        rintro ⟨hne, heq⟩
        rcases hc with h | h
        · exact hne h
        · exact h heq)]
    · rw [List.getLast?_append_of_ne_nil _ (by simp)]
      rfl
  · push_neg at hc
    rw [hep, if_neg (by
      rintro (h | h)
      · exact hc.1 h
      · exact h hc.2)]
    exact ⟨by rw [if_pos hc], hc.2, hc.1⟩

/-- C6: for every assembly source accepted by the assembler (with PARA present
in the mnemonic table), the last word of the produced image is the PARA opcode
bitstring; a PARA word is appended exactly when the pass-2 image is empty or
does not already end with that bitstring. -/
theorem C6_image_ends_with_para (table : MnemTable) (text : List Char)
    (len : String) (bits : List Char) (words : List (List Char))
    (hpara : lookupMnem table "PARA" = some (len, bits))
    (h : assembleText table text = .ok words) :
    words ≠ [] ∧ words.getLast? = some bits ∧
    ∃ lm count pre, pass1 [] 0 (rawLines text) = .ok (lm, count) ∧
      pass2 table lm (rawLines text) = .ok pre ∧
      words = (if pre ≠ [] ∧ pre.getLast? = some bits then pre else pre ++ [bits]) := by
  unfold assembleText at h
  cases h1 : pass1 [] 0 (rawLines text) with
  | error e => rw [h1] at h; exact absurd h (by simp)
  | ok r =>
    obtain ⟨lm, count⟩ := r
    rw [h1] at h
    replace h : (match pass2 table lm (rawLines text) with
      | Except.error e => Except.error e
      | Except.ok ws => Except.ok (ensurePara table ws)) = Except.ok words := h
    cases h2 : pass2 table lm (rawLines text) with
    | error e => rw [h2] at h; exact absurd h (by simp)
    | ok pre =>
      rw [h2] at h
      replace h : Except.ok (ensurePara table pre) = Except.ok words := h
      simp only [Except.ok.injEq] at h
      obtain ⟨heq, hlast, hne⟩ := ensurePara_getLast table len bits hpara pre
      exact ⟨by rw [← h]; exact hne, by rw [← h]; exact hlast,
        lm, count, pre, rfl, h2, by rw [← h]; exact heq⟩

theorem C6_image_ends_with_para_witness :
    ∃ words, assembleText sampleTable (String.toList "SUMA R4, R5") = .ok words ∧
      words ≠ [] ∧ words.getLast? = some (List.replicate 64 '1') := by
  have h : assembleText sampleTable (String.toList "SUMA R4, R5") =
      .ok [String.toList "0111111111111111111111111111111111111111111111111111110010000101",
           List.replicate 64 '1'] := by rfl
  have hc := C6_image_ends_with_para sampleTable (String.toList "SUMA R4, R5")
    "64" (List.replicate 64 '1') _ rfl h
  exact ⟨_, h, hc.1, hc.2.1⟩

/-! ### C2 — word length and word count of the produced image -/

/-- C2 counterexample: the source `.data 5` has no instruction lines and one
`.data` value, so the claimed word count is 1; but the assembler appends a
PARA terminator, producing an image of 2 words. -/
theorem C2_counterexample_data5_image_has_extra_para :
    assembleText sampleTable (String.toList ".data 5") =
      .ok [toNbits 5 64, List.replicate 64 '1'] ∧
    pass1 [] 0 (rawLines (String.toList ".data 5")) = .ok ([], 1) ∧
    ([toNbits 5 64, List.replicate 64 '1'] : List (List Char)).length ≠ 1 := by
  refine ⟨by rfl, by rfl, by decide⟩

theorem isDigit_not_delim (c : Char) (h : c.isDigit = true) : isDelim c = false := by
  have h1 : ¬ c = ',' := by
    intro he; rw [he] at h; exact absurd h (by decide)
  have h2 : ¬ c = ' ' := by
    intro he; rw [he] at h; exact absurd h (by decide)
  have h3 : ¬ c = '\t' := by
    intro he; rw [he] at h; exact absurd h (by decide)
  have h4 : ¬ c = '\r' := by
    intro he; rw [he] at h; exact absurd h (by decide)
  have h5 : ¬ c = '\n' := by
    intro he; rw [he] at h; exact absurd h (by decide)
  simp [isDelim, Char.isWhitespace, h1, h2, h3, h4, h5]

theorem delim_false_not_ws (c : Char) (h : isDelim c = false) : c.isWhitespace = false := by
  simp [isDelim] at h
  exact h.2

theorem dataWords_length :
    ∀ toks ws, dataWords toks = .ok ws → ws.length = toks.length := by
  intro toks
  induction toks with
  | nil => intro ws h; cases h; rfl
  | cons dv rest ih =>
    intro ws h
    unfold dataWords at h
    cases hp : parseNumToken dv with
    | none => rw [hp] at h; exact absurd h (by simp)
    | some v =>
      rw [hp] at h
      cases hr : dataWords rest with
      | error e => rw [hr] at h; exact absurd h (by simp)
      | ok ws2 =>
        rw [hr] at h
        replace h : Except.ok (toNbits v 64 :: ws2) = Except.ok ws := h
        simp only [Except.ok.injEq] at h
        rw [← h]
        simp [ih ws2 hr]

theorem dataWords_64 :
    ∀ toks ws, dataWords toks = .ok ws → ∀ w ∈ ws, w.length = 64 := by
  intro toks
  induction toks with
  | nil => intro ws h; cases h; intro w hw; simp at hw
  | cons dv rest ih =>
    intro ws h
    unfold dataWords at h
    cases hp : parseNumToken dv with
    | none => rw [hp] at h; exact absurd h (by simp)
    | some v =>
      rw [hp] at h
      cases hr : dataWords rest with
      | error e => rw [hr] at h; exact absurd h (by simp)
      | ok ws2 =>
        rw [hr] at h
        replace h : Except.ok (toNbits v 64 :: ws2) = Except.ok ws := h
        simp only [Except.ok.injEq] at h
        rw [← h]
        intro w hw
        rcases List.mem_cons.mp hw with rfl | hw
        · exact toNbits_length v 64 (by omega)
        · exact ih ws2 hr w hw

/-- Tokens produced by `splitParts` are non-empty and free of separators. -/
theorem splitPartsAux_wf :
    ∀ l cur, (∀ c ∈ cur, isDelim c = false) →
      ∀ p ∈ splitPartsAux cur l, p ≠ [] ∧ ∀ c ∈ p, isDelim c = false := by
  intro l
  induction l with
  | nil =>
    intro cur hcur p hp
    unfold splitPartsAux at hp
    by_cases hc : cur = []
    · rw [if_pos hc] at hp
      simp at hp
    · rw [if_neg hc] at hp
      simp at hp
      subst hp
      exact ⟨by simp [hc], fun c hc2 => hcur c (by simpa using hc2)⟩
  | cons c cs ih =>
    intro cur hcur p hp
    unfold splitPartsAux at hp
    by_cases hd : isDelim c
    · rw [if_pos hd] at hp
      by_cases hc : cur = []
      · rw [if_pos hc] at hp
        exact ih [] (by simp) p hp
      · rw [if_neg hc] at hp
        rcases List.mem_cons.mp hp with rfl | hp
        · exact ⟨by simp [hc], fun d hd2 => hcur d (by simpa using hd2)⟩
        · exact ih [] (by simp) p hp
    · rw [if_neg hd] at hp
      exact ih (c :: cur) (by
        intro d hd2
        rcases List.mem_cons.mp hd2 with rfl | hd2
        · simpa using hd
        · exact hcur d hd2) p hp

theorem splitParts_wf (l : List Char) :
    ∀ p ∈ splitParts l, p ≠ [] ∧ ∀ c ∈ p, isDelim c = false :=
  splitPartsAux_wf l [] (by simp)

/-- Consuming one whole separator-free token. -/
theorem splitPartsAux_token :
    ∀ p : List Char, (∀ c ∈ p, isDelim c = false) → ∀ cur l,
      splitPartsAux cur (p ++ l) = splitPartsAux (p.reverse ++ cur) l := by
  intro p
  induction p with
  | nil => intro _ cur l; simp
  | cons a as ih =>
    intro hall cur l
    have ha : isDelim a = false := hall a (by simp)
    show splitPartsAux cur (a :: (as ++ l)) = _
    simp only [splitPartsAux]
    rw [if_neg (by simp [ha])]
    rw [ih (fun c hc => hall c (by simp [hc])) (a :: cur) l]
    congr 1
    simp

/-- Splitting the space-join of well-formed tokens returns the tokens:
`' '.join(parts)` round-trips through `re.split('[,\s]+', ...)`. -/
theorem splitParts_joinSpace :
    ∀ ps : List (List Char),
      (∀ p ∈ ps, p ≠ [] ∧ ∀ c ∈ p, isDelim c = false) →
      splitParts (joinSpace ps) = ps := by
  intro ps
  induction ps with
  | nil => intro _; rfl
  | cons p ps ih =>
    intro hwf
    obtain ⟨hpne, hpch⟩ := hwf p (by simp)
    cases ps with
    | nil =>
      show splitParts (joinSpace [p]) = [p]
      unfold joinSpace splitParts
      rw [show p = p ++ [] from by simp, splitPartsAux_token p hpch [] []]
      simp only [List.append_nil]
      simp only [splitPartsAux]
      rw [if_neg (by simp [hpne])]
      simp
    | cons q qs =>
      show splitParts (p ++ ' ' :: joinSpace (q :: qs)) = p :: q :: qs
      unfold splitParts
      rw [splitPartsAux_token p hpch [] _]
      show splitPartsAux (p.reverse ++ []) (' ' :: joinSpace (q :: qs)) = _
      simp only [splitPartsAux]
      rw [if_pos (by decide), if_neg (by simp [hpne])]
      have := ih (fun r hr => hwf r (by simp [hr]))
      unfold splitParts at this
      rw [this]
      simp

theorem joinSpace_cons (p : List Char) (ps : List (List Char)) :
    ∃ t, joinSpace (p :: ps) = p ++ t ∧ (t = [] ∨ ∃ J, t = ' ' :: J) := by
  cases ps with
  | nil => exact ⟨[], by simp [joinSpace], Or.inl rfl⟩
  | cons q qs => exact ⟨' ' :: joinSpace (q :: qs), rfl, Or.inr ⟨_, rfl⟩⟩

theorem joinSpace_ne_nil (ps : List (List Char)) (hne : ps ≠ [])
    (hwf : ∀ p ∈ ps, p ≠ [] ∧ ∀ c ∈ p, isDelim c = false) : joinSpace ps ≠ [] := by
  match ps with
  | [] => exact absurd rfl hne
  | p :: rest =>
    obtain ⟨t, ht, -⟩ := joinSpace_cons p rest
    rw [ht]
    have := (hwf p (by simp)).1
    simp [this]

theorem getLast?_joinSpace_not_delim :
    ∀ ps : List (List Char), (∀ p ∈ ps, p ≠ [] ∧ ∀ c ∈ p, isDelim c = false) →
      ∀ c, (joinSpace ps).getLast? = some c → isDelim c = false := by
  intro ps
  induction ps with
  | nil => intro _ c hc; simp [joinSpace] at hc
  | cons p rest ih =>
    intro hwf c hc
    cases rest with
    | nil =>
      have hwp := hwf p (by simp)
      have hmem : c ∈ p := by
        have hjs : joinSpace [p] = p := by simp [joinSpace]
        rw [hjs] at hc
        obtain ⟨hh, rfl⟩ := List.mem_getLast?_eq_getLast (Option.mem_def.mpr hc)
        exact List.getLast_mem hh
      exact hwp.2 c hmem
    | cons q qs =>
      have hJ : joinSpace (q :: qs) ≠ [] :=
        joinSpace_ne_nil _ (by simp) (fun r hr => hwf r (by simp [hr]))
      have : joinSpace (p :: q :: qs) = p ++ ' ' :: joinSpace (q :: qs) := rfl
      rw [this, List.getLast?_append_of_ne_nil _ (by simp)] at hc
      rw [show (' ' :: joinSpace (q :: qs)) = [' '] ++ joinSpace (q :: qs) from rfl,
        List.getLast?_append_of_ne_nil _ hJ] at hc
      exact ih (fun r hr => hwf r (by simp [hr])) c hc

theorem dropWhile_head_false (p : Char → Bool) :
    ∀ l : List Char, (∀ c, l.head? = some c → p c = false) → l.dropWhile p = l := by
  intro l h
  cases l with
  | nil => rfl
  | cons c cs =>
    have := h c rfl
    simp [List.dropWhile_cons, this]

theorem trimWs_joinSpace (ps : List (List Char)) (hne : ps ≠ [])
    (hwf : ∀ p ∈ ps, p ≠ [] ∧ ∀ c ∈ p, isDelim c = false) :
    trimWs (joinSpace ps) = joinSpace ps := by
  unfold trimWs
  have h1 : (joinSpace ps).dropWhile Char.isWhitespace = joinSpace ps := by
    apply dropWhile_head_false
    intro c hc
    match ps, hne with
    | p :: rest, _ =>
      obtain ⟨t, ht, -⟩ := joinSpace_cons p rest
      obtain ⟨hpne, hpch⟩ := hwf p (by simp)
      match p, hpne with
      | a :: ar, _ =>
        rw [ht] at hc
        simp at hc
        rw [← hc]
        exact delim_false_not_ws a (hpch a (by simp))
  rw [h1]
  have h2 : (joinSpace ps).reverse.dropWhile Char.isWhitespace = (joinSpace ps).reverse := by
    apply dropWhile_head_false
    intro c hc
    rw [List.head?_reverse] at hc
    exact delim_false_not_ws c (getLast?_joinSpace_not_delim ps hwf c hc)
  rw [h2, List.reverse_reverse]

theorem lookupMnem_opc_ne_nil (table : MnemTable) (m : String) (len : String)
    (opc : List Char) (hne : ∀ e ∈ table, e.2.2 ≠ [])
    (h : lookupMnem table m = some (len, opc)) : opc ≠ [] := by
  unfold lookupMnem at h
  cases hf : table.find? (fun e => e.1 == m) with
  | none => rw [hf] at h; exact absurd h (by simp)
  | some e =>
    rw [hf] at h
    simp only [Option.map_some'] at h
    have hmem := List.mem_of_find?_eq_some hf
    have := hne e hmem
    rw [show e.2 = (len, opc) from by injection h] at this
    exact this

theorem toNbits_ne_nil (v : Int) (w : Nat) (hw : 0 < w) : toNbits v w ≠ [] := by
  intro hnil
  have := toNbits_length v w hw
  rw [hnil] at this
  simp at this
  omega

theorem assembleLineParts_cons_ok (table : MnemTable) (lm : LabelMap)
    (p0 : List Char) (args : List (List Char)) (r : Option (List Char))
    (hne : ∀ e ∈ table, e.2.2 ≠ [])
    (h : assembleLineParts table lm (p0 :: args) = .ok r) :
    ∃ w, r = some w ∧ w ≠ [] := by
  simp only [assembleLineParts] at h
  split at h
  · exact absurd h (by simp)
  · rename_i len opc heq
    have hopc : opc ≠ [] := lookupMnem_opc_ne_nil table _ len opc hne heq
    repeat' split at h
    all_goals cases h
    all_goals refine ⟨_, rfl, ?_⟩
    all_goals first
      | exact hopc
      | simp [toNbits_ne_nil _ 5 (by omega), toNbits_ne_nil _ 24 (by omega),
          toNbits_ne_nil _ 32 (by omega)]

theorem mapIdx_pres (P : List Char → Prop) :
    ∀ (l : List (List Char)) (f : Nat → List Char → List Char),
      (∀ i t, P t → P (f i t)) → (∀ t ∈ l, P t) → ∀ t ∈ List.mapIdx f l, P t := by
  intro l
  induction l with
  | nil => intro f _ _ t ht; rw [List.mapIdx_nil] at ht; simp at ht
  | cons a as ih =>
    intro f hf hall t ht
    rw [List.mapIdx_cons] at ht
    rcases List.mem_cons.mp ht with rfl | ht
    · exact hf 0 a (hall a (by simp))
    · exact ih (fun i => f (i + 1)) (fun i t h => hf (i + 1) t h)
        (fun t h => hall t (by simp [h])) t ht

theorem bareSubstTok_pres (lm : LabelMap) (t : List Char)
    (h : t ≠ [] ∧ ∀ c ∈ t, isDelim c = false) :
    bareSubstTok lm t ≠ [] ∧ ∀ c ∈ bareSubstTok lm t, isDelim c = false := by
  unfold bareSubstTok
  cases lookupLabel lm t with
  | none => exact h
  | some v =>
    exact ⟨natDec_ne_nil v, fun c hc => isDigit_not_delim c (mem_natDec_isDigit v c hc)⟩

theorem bareSubst_wf (lm : LabelMap) (parts : List (List Char))
    (h : ∀ p ∈ parts, p ≠ [] ∧ ∀ c ∈ p, isDelim c = false) :
    ∀ p ∈ bareSubst lm parts, p ≠ [] ∧ ∀ c ∈ p, isDelim c = false := by
  unfold bareSubst
  exact mapIdx_pres _ parts _
    (fun i t ht => by
      by_cases hi : i = 1 ∨ i = 2
      · rw [if_pos hi]; exact bareSubstTok_pres lm t ht
      · rw [if_neg hi]; exact ht) h

theorem bareSubst_cons (lm : LabelMap) (p0 : List Char) (ps : List (List Char)) :
    ∃ tl, bareSubst lm (p0 :: ps) = p0 :: tl := by
  unfold bareSubst
  rw [List.mapIdx_cons]
  exact ⟨_, by rw [if_neg (by omega)]⟩

theorem take1_joinSpace (p0 : List Char) (tl : List (List Char)) (hp0 : p0 ≠ []) :
    (joinSpace (p0 :: tl)).take 1 = p0.take 1 := by
  obtain ⟨t, ht, -⟩ := joinSpace_cons p0 tl
  rw [ht, List.take_append_of_le_length (by
    cases p0 with
    | nil => exact absurd rfl hp0
    | cons c cs => simp)]

theorem take2_joinSpace (p0 : List Char) (tl : List (List Char)) (hp0 : p0 ≠ [])
    (hs : p0.take 2 ≠ ['/', '/']) : (joinSpace (p0 :: tl)).take 2 ≠ ['/', '/'] := by
  obtain ⟨t, ht, hcase⟩ := joinSpace_cons p0 tl
  rw [ht]
  match p0, hp0 with
  | [c], _ =>
    rcases hcase with rfl | ⟨J, rfl⟩
    · simp
    · intro heq
      simp at heq
  | c :: d :: r, _ =>
    show (c :: d :: (r ++ t)).take 2 ≠ _
    intro heq
    simp at heq
    exact hs (by simp [heq.1, heq.2])

/-- A well-formed instruction line (non-empty token list after memory-label
rewriting, first token not opening a comment) assembles to exactly one 64-bit
word when pass 2 succeeds on it. -/
theorem instrLineWords_single (table : MnemTable) (lm : LabelMap) (line : List Char)
    (ws : List (List Char))
    (hne : ∀ e ∈ table, e.2.2 ≠ [])
    (htok : ∃ p0 ps, splitParts (rewriteMemLabels lm line) = p0 :: ps ∧
      p0.take 1 ≠ [';'] ∧ p0.take 2 ≠ ['/', '/'])
    (h : instrLineWords table lm line = .ok ws) :
    ∃ w, ws = [w] ∧ w.length = 64 := by
  obtain ⟨p0, ps, hsp, hsc, hsl⟩ := htok
  obtain ⟨tl, hbs⟩ : ∃ tl, bareSubst lm (splitParts (rewriteMemLabels lm line)) = p0 :: tl := by
    rw [hsp]
    exact bareSubst_cons lm p0 ps
  have hwf2 : ∀ p ∈ (p0 :: tl), p ≠ [] ∧ ∀ c ∈ p, isDelim c = false := by
    rw [← hbs]
    exact bareSubst_wf lm _ (splitParts_wf _)
  have hp0 : p0 ≠ [] := (hwf2 p0 (by simp)).1
  have hstr : assembleLineStr table lm (joinSpace (p0 :: tl)) =
      assembleLineParts table lm (p0 :: tl) := by
    unfold assembleLineStr
    rw [trimWs_joinSpace _ (by simp) hwf2]
    rw [if_neg (joinSpace_ne_nil _ (by simp) hwf2)]
    rw [if_neg (by
      rw [take1_joinSpace p0 tl hp0]
      exact hsc)]
    rw [if_neg (take2_joinSpace p0 tl hp0 hsl)]
    rw [splitParts_joinSpace _ hwf2]
  replace h : (match assembleLineStr table lm
      (if bareSubst lm (splitParts (rewriteMemLabels lm line)) = []
       then rewriteMemLabels lm line
       else joinSpace (bareSubst lm (splitParts (rewriteMemLabels lm line)))) with
    | Except.error e => Except.error e
    | Except.ok none => Except.ok []
    | Except.ok (some w) =>
      if w = [] then Except.ok []
      else if w.length ≠ 64 then Except.error "Assembled instruction not 64 bits"
      else Except.ok [w]) = Except.ok ws := h
  rw [hbs, if_neg (by simp)] at h
  rw [hstr] at h
  cases hres : assembleLineParts table lm (p0 :: tl) with
  | error e =>
    rw [hres] at h
    exact absurd h (by simp)
  | ok r =>
    obtain ⟨w, rfl, hwne⟩ := assembleLineParts_cons_ok table lm p0 tl r hne hres
    rw [hres] at h
    replace h : (if w = [] then Except.ok []
      else if w.length ≠ 64 then Except.error "Assembled instruction not 64 bits"
      else Except.ok [w]) = Except.ok ws := h
    rw [if_neg hwne] at h
    by_cases hlen : w.length ≠ 64
    · rw [if_pos hlen] at h
      exact absurd h (by simp)
    · rw [if_neg hlen] at h
      replace h : [w] = ws := by
        injection h
      exact ⟨w, h.symm, by omega⟩

/-- Well-formedness of one source line: when the line is an instruction line
(non-empty, not a label, not `.data`), its rewritten form splits into at least
one token and the first token does not open a comment.  Every real assembly
line satisfies this (comment markers are stripped before the passes and
tokens are non-empty by construction). -/
def InstrTok (lm : LabelMap) (raw : List Char) : Prop :=
  (trimWs raw ≠ [] ∧ (trimWs raw).getLast? ≠ some ':' ∧ dataPrefix (trimWs raw) = false) →
  ∃ p0 ps, splitParts (rewriteMemLabels lm (trimWs raw)) = p0 :: ps ∧
    p0.take 1 ≠ [';'] ∧ p0.take 2 ≠ ['/', '/']

theorem pass12_count (table : MnemTable) (lmF : LabelMap)
    (hne : ∀ e ∈ table, e.2.2 ≠ []) :
    ∀ rls (lm0 : LabelMap) (c0 : Nat) lmOut count pre,
      pass1 lm0 c0 rls = .ok (lmOut, count) →
      pass2 table lmF rls = .ok pre →
      (∀ raw ∈ rls, InstrTok lmF raw) →
      pre.length + c0 = count ∧ ∀ w ∈ pre, w.length = 64 := by
  intro rls
  induction rls with
  | nil =>
    intro lm0 c0 lmOut count pre h1 h2 _
    replace h1 : (Except.ok (lm0, c0) : Except String (LabelMap × Nat)) =
      Except.ok (lmOut, count) := h1
    replace h2 : (Except.ok [] : Except String (List (List Char))) = Except.ok pre := h2
    cases h1
    cases h2
    simp
  | cons raw rest ih =>
    intro lm0 c0 lmOut count pre h1 h2 htoks
    have htoksr : ∀ r ∈ rest, InstrTok lmF r := fun r hr => htoks r (by simp [hr])
    replace h1 : (if trimWs raw = [] then pass1 lm0 c0 rest
      else if (trimWs raw).getLast? = some ':' then
        (if trimWs (trimWs raw).dropLast = [] then Except.error "Empty label"
         else if (lookupLabel lm0 (trimWs (trimWs raw).dropLast)).isSome = true then
           Except.error "Duplicate label"
         else pass1 (lm0 ++ [(trimWs (trimWs raw).dropLast, c0)]) c0 rest)
      else if dataPrefix (trimWs raw) = true then
        pass1 lm0 (c0 + ((splitParts (trimWs raw)).length - 1)) rest
      else pass1 lm0 (c0 + 1) rest) = .ok (lmOut, count) := h1
    replace h2 : (if trimWs raw = [] then pass2 table lmF rest
      else if (trimWs raw).getLast? = some ':' then pass2 table lmF rest
      else if dataPrefix (trimWs raw) = true then
        (match dataWords ((splitParts (trimWs raw)).drop 1) with
         | Except.error e => Except.error e
         | Except.ok ws =>
           match pass2 table lmF rest with
           | Except.error e => Except.error e
           | Except.ok rs => Except.ok (ws ++ rs))
      else
        (match instrLineWords table lmF (trimWs raw) with
         | Except.error e => Except.error e
         | Except.ok ws =>
           match pass2 table lmF rest with
           | Except.error e => Except.error e
           | Except.ok rs => Except.ok (ws ++ rs))) = .ok pre := h2
    by_cases hempty : trimWs raw = []
    · rw [if_pos hempty] at h1 h2
      exact ih lm0 c0 lmOut count pre h1 h2 htoksr
    · rw [if_neg hempty] at h1 h2
      by_cases hlabel : (trimWs raw).getLast? = some ':'
      · rw [if_pos hlabel] at h1 h2
        by_cases he : trimWs (trimWs raw).dropLast = []
        · rw [if_pos he] at h1
          exact absurd h1 (by simp)
        · rw [if_neg he] at h1
          by_cases hdup : (lookupLabel lm0 (trimWs (trimWs raw).dropLast)).isSome = true
          · rw [if_pos hdup] at h1
            exact absurd h1 (by simp)
          · rw [if_neg hdup] at h1
            exact ih _ c0 lmOut count pre h1 h2 htoksr
      · rw [if_neg hlabel] at h1 h2
        by_cases hdata : dataPrefix (trimWs raw) = true
        · rw [if_pos hdata] at h1 h2
          cases hdw : dataWords ((splitParts (trimWs raw)).drop 1) with
          | error e =>
            rw [hdw] at h2
            exact absurd h2 (by simp)
          | ok dws =>
            rw [hdw] at h2
            replace h2 : (match pass2 table lmF rest with
              | Except.error e => Except.error e
              | Except.ok rs => Except.ok (dws ++ rs)) = .ok pre := h2
            cases hrest : pass2 table lmF rest with
            | error e =>
              rw [hrest] at h2
              exact absurd h2 (by simp)
            | ok rs =>
              rw [hrest] at h2
              replace h2 : (Except.ok (dws ++ rs) : Except String (List (List Char))) =
                Except.ok pre := h2
              cases h2
              obtain ⟨ihc, ih64⟩ := ih lm0 _ lmOut count rs h1 hrest htoksr
              have hlen : dws.length = (splitParts (trimWs raw)).length - 1 := by
                rw [dataWords_length _ _ hdw]
                simp
              constructor
              · simp only [List.length_append]
                omega
              · intro w hw
                rcases List.mem_append.mp hw with hw | hw
                · exact dataWords_64 _ _ hdw w hw
                · exact ih64 w hw
        · rw [if_neg hdata] at h1 h2
          cases hiw : instrLineWords table lmF (trimWs raw) with
          | error e =>
            rw [hiw] at h2
            exact absurd h2 (by simp)
          | ok iws =>
            rw [hiw] at h2
            replace h2 : (match pass2 table lmF rest with
              | Except.error e => Except.error e
              | Except.ok rs => Except.ok (iws ++ rs)) = .ok pre := h2
            cases hrest : pass2 table lmF rest with
            | error e =>
              rw [hrest] at h2
              exact absurd h2 (by simp)
            | ok rs =>
              rw [hrest] at h2
              replace h2 : (Except.ok (iws ++ rs) : Except String (List (List Char))) =
                Except.ok pre := h2
              cases h2
              obtain ⟨ihc, ih64⟩ := ih lm0 _ lmOut count rs h1 hrest htoksr
              obtain ⟨w, rfl, hw64⟩ := instrLineWords_single table lmF (trimWs raw) iws hne
                (htoks raw (by simp) ⟨hempty, hlabel, by
                  cases hh : dataPrefix (trimWs raw)
                  · rfl
                  · exact absurd hh hdata⟩) hiw
              constructor
              · simp only [List.length_append, List.length_cons, List.length_nil]
                omega
              · intro v hv
                rcases List.mem_append.mp hv with hv | hv
                · rw [List.mem_singleton.mp hv]
                  exact hw64
                · exact ih64 v hv

/-- C2 (amended): for every well-formed assembly source accepted by the
assembler, every word of the produced image is a bitstring of exactly 64
characters, and the word count of the pass-2 image equals the sum of the
instruction lines and the `.data` values of the source (the pass-1 counter);
the final image additionally carries the appended PARA terminator word when
the pass-2 image is empty or does not already end in the PARA opcode. -/
theorem C2_amended_word_length_and_count (table : MnemTable) (text : List Char)
    (lm : LabelMap) (count : Nat) (pre : List (List Char))
    (hne : ∀ e ∈ table, e.2.2 ≠ [])
    (hpara : ∀ len bits, lookupMnem table "PARA" = some (len, bits) → bits.length = 64)
    (h1 : pass1 [] 0 (rawLines text) = .ok (lm, count))
    (h2 : pass2 table lm (rawLines text) = .ok pre)
    (htoks : ∀ raw ∈ rawLines text, InstrTok lm raw) :
    assembleText table text = .ok (ensurePara table pre) ∧
    pre.length = count ∧
    (∀ w ∈ pre, w.length = 64) ∧
    (∀ w ∈ ensurePara table pre, w.length = 64) := by
  obtain ⟨hcount, h64⟩ := pass12_count table lm hne (rawLines text) [] 0 lm count pre h1 h2 htoks
  refine ⟨?_, by omega, h64, ?_⟩
  · unfold assembleText
    rw [h1]
    show (match pass2 table lm (rawLines text) with
      | Except.error e => Except.error e
      | Except.ok ws => Except.ok (ensurePara table ws)) = _
    rw [h2]
  · intro w hw
    unfold ensurePara at hw
    cases hpp : lookupMnem table "PARA" with
    | none =>
      rw [hpp] at hw
      exact h64 w hw
    | some lb =>
      obtain ⟨len, bits⟩ := lb
      rw [hpp] at hw
      replace hw : w ∈ (if pre = [] ∨ pre.getLast? ≠ some bits then pre ++ [bits] else pre) := hw
      by_cases hc : pre = [] ∨ pre.getLast? ≠ some bits
      · rw [if_pos hc] at hw
        rcases List.mem_append.mp hw with hw | hw
        · exact h64 w hw
        · rw [List.mem_singleton.mp hw]
          exact hpara len bits hpp
      · rw [if_neg hc] at hw
        exact h64 w hw

theorem C2_amended_word_length_and_count_witness :
    assembleText sampleTable (String.toList "LIMP R4\nPARA") =
      .ok (ensurePara sampleTable
        [String.toList "0100000000000000000000000000000000000000000000000000000000000100",
         List.replicate 64 '1']) ∧
    ([String.toList "0100000000000000000000000000000000000000000000000000000000000100",
      List.replicate 64 '1'] : List (List Char)).length = 2 ∧
    ∀ w ∈ ([String.toList "0100000000000000000000000000000000000000000000000000000000000100",
      List.replicate 64 '1'] : List (List Char)), w.length = 64 := by
  have htoks : ∀ raw ∈ rawLines (String.toList "LIMP R4\nPARA"), InstrTok [] raw := by
    intro raw hr
    rw [show rawLines (String.toList "LIMP R4\nPARA") =
      [String.toList "LIMP R4", String.toList "PARA"] from by rfl] at hr
    rcases List.mem_cons.mp hr with rfl | hr
    · intro _
      exact ⟨String.toList "LIMP", [String.toList "R4"], by decide, by decide, by decide⟩
    · rcases List.mem_cons.mp hr with rfl | hr
      · intro _
        exact ⟨String.toList "PARA", [], by decide, by decide, by decide⟩
      · simp at hr
  have h := C2_amended_word_length_and_count sampleTable (String.toList "LIMP R4\nPARA")
    [] 2
    [String.toList "0100000000000000000000000000000000000000000000000000000000000100",
     List.replicate 64 '1']
    (by decide) (by intro len bits hb; injection hb with hb1; cases hb1; rfl)
    (by rfl) (by rfl) htoks
  exact ⟨h.1, h.2.1, h.2.2.1⟩

/- ### SPL compiler: register allocation and expression lowering
   (src/model/compilador/parser_spl.py) -/

/-- Embedding of `ParserContext.__init__` state (defaults `reg_start=4`,
`reg_end=15`).  `var_map` is the insertion-ordered dict. -/
structure ParserContext where
  reg_start : Nat
  reg_end : Nat
  next_reg : Nat
  var_map : List (String × Nat)
  temp_count : Nat
  label_count : Nat

def initCtx : ParserContext :=
  { reg_start := 4, reg_end := 15, next_reg := 4, var_map := [], temp_count := 0,
    label_count := 0 }

def lookupVar : List (String × Nat) → String → Option Nat
  | [], _ => none
  | (k, r) :: rest, n => if k = n then some r else lookupVar rest n

/-- Embedding of `ParserContext.reg_for` (the pointer reset
`next_reg = reg_start` of the wrap branch is inlined into that branch). -/
def regFor (v : String) (c : ParserContext) : Nat × ParserContext :=
  match lookupVar c.var_map v with
  | some r => (r, c)
  | none =>
    if c.next_reg > c.reg_end then
      (c.reg_start,
        { c with
          var_map := c.var_map ++ [(v, c.reg_start)]
          next_reg := c.reg_start + 1 })
    else
      (c.next_reg,
        { c with
          var_map := c.var_map ++ [(v, c.next_reg)]
          next_reg := c.next_reg + 1 })

/-- Embedding of `ParserContext.new_temp`. -/
def newTemp (c : ParserContext) : Nat × ParserContext :=
  if c.next_reg > c.reg_end then
    (c.reg_start, { c with next_reg := c.reg_start + 1, temp_count := c.temp_count + 1 })
  else
    (c.next_reg, { c with next_reg := c.next_reg + 1, temp_count := c.temp_count + 1 })

/-- Expression AST nodes handled by `generate_expr_asm`. -/
inductive Expr where
  | num : Int → Expr
  | name : String → Expr
  | memref : Nat → Expr
  | memrefLabel : String → Nat → Expr
  | memrefIndirect : String → Expr → Expr
  | inputE : Expr
  | uminus : Expr → Expr
  | binop : String → Expr → Expr → Expr

/-- Embedding of `generate_expr_asm`.  `esAddr` is `constants.E_S_RANGE[0]`
(the module `constants.py` is not under src/; the address is a parameter).
Raised `SyntaxError`s become `Except.error`. -/
def generateExprAsm (esAddr : Nat) : Expr → Nat → ParserContext →
    Except String (List (List Char) × ParserContext)
  | .num v, target, c =>
    .ok ([String.toList "ICARGA R" ++ natDec target ++ ' ' :: intDec v], c)
  | .name n, target, c =>
    let src := (regFor n c).1
    let c2 := (regFor n c).2
    if src ≠ target then
      .ok ([String.toList "COPIA R" ++ natDec target ++ String.toList ", R" ++ natDec src], c2)
    else .ok ([], c2)
  | .memref addr, target, c =>
    .ok ([String.toList "CARGA R" ++ natDec target ++ String.toList ", M[" ++
      natDec addr ++ [']']], c)
  | .memrefLabel lbl off, target, c =>
    .ok ([String.toList "CARGA R" ++ natDec target ++ String.toList ", M[" ++
      String.toList lbl ++ '+' :: natDec off ++ [']']], c)
  | .memrefIndirect nm offAst, target, c =>
    let offTemp := (newTemp c).1
    let c2 := (newTemp c).2
    match generateExprAsm esAddr offAst offTemp c2 with
    | .error e => .error e
    | .ok (ls, c3) =>
      let baseTemp := (newTemp c3).1
      let c4 := (newTemp c3).2
      .ok (ls ++
        [String.toList "ICARGA R" ++ natDec baseTemp ++ ' ' :: String.toList nm,
         String.toList "SUMA R" ++ natDec baseTemp ++ String.toList ", R" ++ natDec offTemp,
         String.toList "CARGAIND R" ++ natDec target ++ ' ' :: 'R' :: natDec baseTemp], c4)
  | .inputE, target, c =>
    .ok ([String.toList "CARGA R" ++ natDec target ++ String.toList ", M[" ++
      natDec esAddr ++ [']']], c)
  | .uminus inner, target, c =>
    match generateExprAsm esAddr inner target c with
    | .error e => .error e
    | .ok (ls, c2) =>
      let temp := (newTemp c2).1
      let c3 := (newTemp c2).2
      .ok (ls ++
        [String.toList "ICARGA R" ++ natDec temp ++ String.toList " -1",
         String.toList "MULT R" ++ natDec target ++ String.toList ", R" ++ natDec temp], c3)
  | .binop op l r, target, c =>
    match generateExprAsm esAddr l target c with
    | .error e => .error e
    | .ok (ls1, c2) =>
      let temp := (newTemp c2).1
      let c3 := (newTemp c2).2
      match generateExprAsm esAddr r temp c3 with
      | .error e => .error e
      | .ok (ls2, c4) =>
        if op = "+" then
          .ok (ls1 ++ ls2 ++
            [String.toList "SUMA R" ++ natDec target ++ String.toList ", R" ++ natDec temp], c4)
        else if op = "-" then
          .ok (ls1 ++ ls2 ++
            [String.toList "RESTA R" ++ natDec target ++ String.toList ", R" ++ natDec temp], c4)
        else if op = "*" then
          .ok (ls1 ++ ls2 ++
            [String.toList "MULT R" ++ natDec target ++ String.toList ", R" ++ natDec temp], c4)
        else .error ("Unsupported binary op in expression: " ++ op)

def joinNl : List (List Char) → List Char
  | [] => []
  | [l] => l
  | l :: ls => l ++ '\n' :: joinNl ls

/-- Embedding of `p_stmt_register_assign` (`Rn = expr`; the `:=` production
`p_stmt_register_assign_op` is byte-for-byte the same body). -/
def stmtRegisterAssign (esAddr : Nat) (reg : Nat) (ast : Expr) (c : ParserContext) :
    Except String (List Char × ParserContext) :=
  if reg = 0 then .error "Assignment to R0 is not allowed"
  else
    match generateExprAsm esAddr ast reg c with
    | .error e => .error e
    | .ok (ls, c2) => .ok (joinNl ls, c2)

/-- C5 counterexample: the spec says assignment to any of R0–R3 (PC, SP, IR,
STATE) raises `SyntaxError`, but `R1 = 5` is accepted and lowers to an
`ICARGA` that targets R1. -/
theorem C5_counterexample_R1_assignment_accepted :
    stmtRegisterAssign 8 1 (Expr.num 5) initCtx =
      .ok (String.toList "ICARGA R1 5", initCtx) := by
  rfl

/-- C5 (amended): `p_stmt_register_assign` rejects only `R0`; for every
`n ≥ 1` (including the special registers R1–R3) the assignment is accepted
whenever the expression lowers, and for a numeric literal it lowers to a
single `ICARGA` targeting Rn. -/
theorem C5_amended_only_R0_rejected (esAddr : Nat) (ast : Expr) (c : ParserContext)
    (n : Nat) (hn : n ≠ 0) :
    stmtRegisterAssign esAddr 0 ast c = .error "Assignment to R0 is not allowed" ∧
    stmtRegisterAssign esAddr n ast c =
      (match generateExprAsm esAddr ast n c with
       | .error e => .error e
       | .ok (ls, c2) => .ok (joinNl ls, c2)) ∧
    ∀ v : Int, stmtRegisterAssign esAddr n (Expr.num v) c =
      .ok (String.toList "ICARGA R" ++ natDec n ++ ' ' :: intDec v, c) := by
  refine ⟨rfl, ?_, ?_⟩
  · unfold stmtRegisterAssign
    rw [if_neg hn]
  · intro v
    unfold stmtRegisterAssign
    rw [if_neg hn]
    simp [generateExprAsm, joinNl]

theorem C5_amended_only_R0_rejected_witness :
    stmtRegisterAssign 8 0 (Expr.num 5) initCtx =
      .error "Assignment to R0 is not allowed" ∧
    stmtRegisterAssign 8 2 (Expr.num 5) initCtx =
      .ok (String.toList "ICARGA R2 5", initCtx) := by
  have h := C5_amended_only_R0_rejected 8 (Expr.num 5) initCtx 2 (by decide)
  refine ⟨h.1, ?_⟩
  have h2 := h.2.2 5
  rw [h2]
  rfl

/- ### C9: register numbers named in emitted assembly -/

/-- All register numbers literally named (`R` followed by a digit run) in an
emitted assembly line. -/
def regsNamedAux : Nat → List Char → List Nat
  | 0, _ => []
  | _ + 1, [] => []
  | f + 1, ch :: rest =>
    if ch = 'R' ∧ rest.takeWhile Char.isDigit ≠ [] then
      digitsVal (rest.takeWhile Char.isDigit) ::
        regsNamedAux f (rest.dropWhile Char.isDigit)
    else regsNamedAux f rest

def regsNamed (s : List Char) : List Nat := regsNamedAux s.length s

/-- The allocator invariant maintained by `ParserContext`: default bounds,
allocation pointer inside `[reg_start, reg_end + 1]`, and every register ever
handed to a variable inside `[4, 15]`. -/
def CtxInv (c : ParserContext) : Prop :=
  c.reg_start = 4 ∧ c.reg_end = 15 ∧ 4 ≤ c.next_reg ∧ c.next_reg ≤ 16 ∧
  ∀ p ∈ c.var_map, 4 ≤ p.2 ∧ p.2 ≤ 15

theorem lookupVar_mem : ∀ (l : List (String × Nat)) (n : String) (r : Nat),
    lookupVar l n = some r → ∃ k, (k, r) ∈ l := by
  intro l
  induction l with
  | nil => intro n r h; exact absurd h (by simp [lookupVar])
  | cons p rest ih =>
    intro n r h
    obtain ⟨k, v⟩ := p
    unfold lookupVar at h
    by_cases hk : k = n
    · rw [if_pos hk] at h
      cases h
      exact ⟨k, by simp⟩
    · rw [if_neg hk] at h
      obtain ⟨k2, hk2⟩ := ih n r h
      exact ⟨k2, by simp [hk2]⟩

theorem regFor_inv (c : ParserContext) (h : CtxInv c) (v : String) :
    4 ≤ (regFor v c).1 ∧ (regFor v c).1 ≤ 15 ∧ CtxInv (regFor v c).2 := by
  obtain ⟨h1, h2, h3, h4, h5⟩ := h
  cases hlv : lookupVar c.var_map v with
  | some r =>
    obtain ⟨k, hk⟩ := lookupVar_mem c.var_map v r hlv
    have hr := h5 (k, r) hk
    simp only [regFor, hlv]
    exact ⟨hr.1, hr.2, h1, h2, h3, h4, h5⟩
  | none =>
    simp only [regFor, hlv]
    by_cases hw : c.next_reg > c.reg_end
    · rw [if_pos hw]
      refine ⟨by show 4 ≤ c.reg_start; omega, by show c.reg_start ≤ 15; omega, h1, h2,
        by show 4 ≤ c.reg_start + 1; omega, by show c.reg_start + 1 ≤ 16; omega, ?_⟩
      intro p hp
      rcases List.mem_append.mp hp with hp | hp
      · exact h5 p hp
      · rw [List.mem_singleton.mp hp]
        show 4 ≤ c.reg_start ∧ c.reg_start ≤ 15
        omega
    · rw [if_neg hw]
      refine ⟨by show 4 ≤ c.next_reg; omega, by show c.next_reg ≤ 15; omega, h1, h2,
        by show 4 ≤ c.next_reg + 1; omega, by show c.next_reg + 1 ≤ 16; omega, ?_⟩
      intro p hp
      rcases List.mem_append.mp hp with hp | hp
      · exact h5 p hp
      · rw [List.mem_singleton.mp hp]
        show 4 ≤ c.next_reg ∧ c.next_reg ≤ 15
        omega

theorem newTemp_inv (c : ParserContext) (h : CtxInv c) :
    4 ≤ (newTemp c).1 ∧ (newTemp c).1 ≤ 15 ∧ CtxInv (newTemp c).2 := by
  obtain ⟨h1, h2, h3, h4, h5⟩ := h
  unfold newTemp
  by_cases hw : c.next_reg > c.reg_end
  · rw [if_pos hw]
    exact ⟨by show 4 ≤ c.reg_start; omega, by show c.reg_start ≤ 15; omega, h1, h2,
      by show 4 ≤ c.reg_start + 1; omega, by show c.reg_start + 1 ≤ 16; omega, h5⟩
  · rw [if_neg hw]
    exact ⟨by show 4 ≤ c.next_reg; omega, by show c.next_reg ≤ 15; omega, h1, h2,
      by show 4 ≤ c.next_reg + 1; omega, by show c.next_reg + 1 ≤ 16; omega, h5⟩

theorem genExprAsm_inv : ∀ (e : Expr) (esAddr t : Nat) (c : ParserContext)
    (ls : List (List Char)) (c2 : ParserContext), CtxInv c →
    generateExprAsm esAddr e t c = .ok (ls, c2) → CtxInv c2 := by
  intro e
  induction e with
  | num v =>
    intro esAddr t c ls c2 hinv h
    replace h : (Except.ok ([String.toList "ICARGA R" ++ natDec t ++ ' ' :: intDec v], c)
      : Except String (List (List Char) × ParserContext)) = .ok (ls, c2) := h
    cases h
    exact hinv
  | name n =>
    intro esAddr t c ls c2 hinv h
    replace h : (if (regFor n c).1 ≠ t then
        Except.ok ([String.toList "COPIA R" ++ natDec t ++ String.toList ", R" ++
          natDec (regFor n c).1], (regFor n c).2)
      else Except.ok ([], (regFor n c).2)) = .ok (ls, c2) := h
    have hr := (regFor_inv c hinv n).2.2
    by_cases hc : (regFor n c).1 ≠ t
    · rw [if_pos hc] at h
      cases h
      exact hr
    · rw [if_neg hc] at h
      cases h
      exact hr
  | memref addr =>
    intro esAddr t c ls c2 hinv h
    replace h : (Except.ok ([String.toList "CARGA R" ++ natDec t ++ String.toList ", M[" ++
      natDec addr ++ [']']], c) : Except String (List (List Char) × ParserContext)) =
      .ok (ls, c2) := h
    cases h
    exact hinv
  | memrefLabel lbl off =>
    intro esAddr t c ls c2 hinv h
    replace h : (Except.ok ([String.toList "CARGA R" ++ natDec t ++ String.toList ", M[" ++
      String.toList lbl ++ '+' :: natDec off ++ [']']], c)
      : Except String (List (List Char) × ParserContext)) = .ok (ls, c2) := h
    cases h
    exact hinv
  | memrefIndirect nm offAst ih =>
    intro esAddr t c ls c2 hinv h
    replace h : ((match generateExprAsm esAddr offAst (newTemp c).1 (newTemp c).2 with
      | .error e => .error e
      | .ok (ls, c3) =>
        Except.ok (ls ++
          [String.toList "ICARGA R" ++ natDec (newTemp c3).1 ++ ' ' :: String.toList nm,
           String.toList "SUMA R" ++ natDec (newTemp c3).1 ++ String.toList ", R" ++
             natDec (newTemp c).1,
           String.toList "CARGAIND R" ++ natDec t ++ ' ' :: 'R' :: natDec (newTemp c3).1],
          (newTemp c3).2))
      : Except String (List (List Char) × ParserContext)) = .ok (ls, c2) := h
    cases hro : generateExprAsm esAddr offAst (newTemp c).1 (newTemp c).2 with
    | error e =>
      rw [hro] at h
      exact absurd h (by simp)
    | ok r =>
      obtain ⟨ls3, c3⟩ := r
      rw [hro] at h
      replace h : (Except.ok (ls3 ++
          [String.toList "ICARGA R" ++ natDec (newTemp c3).1 ++ ' ' :: String.toList nm,
           String.toList "SUMA R" ++ natDec (newTemp c3).1 ++ String.toList ", R" ++
             natDec (newTemp c).1,
           String.toList "CARGAIND R" ++ natDec t ++ ' ' :: 'R' :: natDec (newTemp c3).1],
          (newTemp c3).2) : Except String (List (List Char) × ParserContext)) =
        .ok (ls, c2) := h
      cases h
      have hc2 := (newTemp_inv c hinv).2.2
      have hc3 := ih esAddr (newTemp c).1 (newTemp c).2 ls3 c3 hc2 hro
      exact (newTemp_inv c3 hc3).2.2
  | inputE =>
    intro esAddr t c ls c2 hinv h
    replace h : (Except.ok ([String.toList "CARGA R" ++ natDec t ++ String.toList ", M[" ++
      natDec esAddr ++ [']']], c) : Except String (List (List Char) × ParserContext)) =
      .ok (ls, c2) := h
    cases h
    exact hinv
  | uminus inner ih =>
    intro esAddr t c ls c2 hinv h
    replace h : ((match generateExprAsm esAddr inner t c with
      | .error e => .error e
      | .ok (ls, cm) =>
        Except.ok (ls ++
          [String.toList "ICARGA R" ++ natDec (newTemp cm).1 ++ String.toList " -1",
           String.toList "MULT R" ++ natDec t ++ String.toList ", R" ++
             natDec (newTemp cm).1], (newTemp cm).2))
      : Except String (List (List Char) × ParserContext)) = .ok (ls, c2) := h
    cases hri : generateExprAsm esAddr inner t c with
    | error e =>
      rw [hri] at h
      exact absurd h (by simp)
    | ok r =>
      obtain ⟨lsi, cm⟩ := r
      rw [hri] at h
      replace h : (Except.ok (lsi ++
          [String.toList "ICARGA R" ++ natDec (newTemp cm).1 ++ String.toList " -1",
           String.toList "MULT R" ++ natDec t ++ String.toList ", R" ++
             natDec (newTemp cm).1], (newTemp cm).2)
        : Except String (List (List Char) × ParserContext)) = .ok (ls, c2) := h
      cases h
      have hcm := ih esAddr t c lsi cm hinv hri
      exact (newTemp_inv cm hcm).2.2
  | binop op l r ihl ihr =>
    intro esAddr t c ls c2 hinv h
    replace h : ((match generateExprAsm esAddr l t c with
      | .error e => .error e
      | .ok (ls1, cm) =>
        match generateExprAsm esAddr r (newTemp cm).1 (newTemp cm).2 with
        | .error e => .error e
        | .ok (ls2, c4) =>
          if op = "+" then
            Except.ok (ls1 ++ ls2 ++
              [String.toList "SUMA R" ++ natDec t ++ String.toList ", R" ++
                natDec (newTemp cm).1], c4)
          else if op = "-" then
            Except.ok (ls1 ++ ls2 ++
              [String.toList "RESTA R" ++ natDec t ++ String.toList ", R" ++
                natDec (newTemp cm).1], c4)
          else if op = "*" then
            Except.ok (ls1 ++ ls2 ++
              [String.toList "MULT R" ++ natDec t ++ String.toList ", R" ++
                natDec (newTemp cm).1], c4)
          else .error ("Unsupported binary op in expression: " ++ op))
      : Except String (List (List Char) × ParserContext)) = .ok (ls, c2) := h
    cases hrl : generateExprAsm esAddr l t c with
    | error e =>
      rw [hrl] at h
      exact absurd h (by simp)
    | ok rl =>
      obtain ⟨ls1, cm⟩ := rl
      rw [hrl] at h
      have hcm := ihl esAddr t c ls1 cm hinv hrl
      replace h : ((match generateExprAsm esAddr r (newTemp cm).1 (newTemp cm).2 with
        | .error e => .error e
        | .ok (ls2, c4) =>
          if op = "+" then
            Except.ok (ls1 ++ ls2 ++
              [String.toList "SUMA R" ++ natDec t ++ String.toList ", R" ++
                natDec (newTemp cm).1], c4)
          else if op = "-" then
            Except.ok (ls1 ++ ls2 ++
              [String.toList "RESTA R" ++ natDec t ++ String.toList ", R" ++
                natDec (newTemp cm).1], c4)
          else if op = "*" then
            Except.ok (ls1 ++ ls2 ++
              [String.toList "MULT R" ++ natDec t ++ String.toList ", R" ++
                natDec (newTemp cm).1], c4)
          else .error ("Unsupported binary op in expression: " ++ op))
        : Except String (List (List Char) × ParserContext)) = .ok (ls, c2) := h
      cases hrr : generateExprAsm esAddr r (newTemp cm).1 (newTemp cm).2 with
      | error e =>
        rw [hrr] at h
        exact absurd h (by simp)
      | ok rr =>
        obtain ⟨ls2, c4⟩ := rr
        rw [hrr] at h
        replace h : ((if op = "+" then
            Except.ok (ls1 ++ ls2 ++
              [String.toList "SUMA R" ++ natDec t ++ String.toList ", R" ++
                natDec (newTemp cm).1], c4)
          else if op = "-" then
            Except.ok (ls1 ++ ls2 ++
              [String.toList "RESTA R" ++ natDec t ++ String.toList ", R" ++
                natDec (newTemp cm).1], c4)
          else if op = "*" then
            Except.ok (ls1 ++ ls2 ++
              [String.toList "MULT R" ++ natDec t ++ String.toList ", R" ++
                natDec (newTemp cm).1], c4)
          else .error ("Unsupported binary op in expression: " ++ op))
          : Except String (List (List Char) × ParserContext)) = .ok (ls, c2) := h
        have hcm2 := (newTemp_inv cm hcm).2.2
        have hc4 := ihr esAddr (newTemp cm).1 (newTemp cm).2 ls2 c4 hcm2 hrr
        by_cases hop1 : op = "+"
        · rw [if_pos hop1] at h
          cases h
          exact hc4
        · rw [if_neg hop1] at h
          by_cases hop2 : op = "-"
          · rw [if_pos hop2] at h
            cases h
            exact hc4
          · rw [if_neg hop2] at h
            by_cases hop3 : op = "*"
            · rw [if_pos hop3] at h
              cases h
              exact hc4
            · rw [if_neg hop3] at h
              exact absurd h (by simp)

/-- C9 counterexample: the accepted statement `R2 = 7` (see C5) makes the
compiler emit the line `ICARGA R2 7`, which names the special register R2 —
outside the claimed range `[4, 15]`. -/
theorem C9_counterexample_emitted_line_names_R2 :
    stmtRegisterAssign 8 2 (Expr.num 7) initCtx =
      .ok (String.toList "ICARGA R2 7", initCtx) ∧
    regsNamed (String.toList "ICARGA R2 7") = [2] ∧ ¬ (4 ≤ 2 ∧ 2 ≤ 15) :=
  ⟨rfl, by decide, by decide⟩

/-- C9 (amended): every register number the allocator hands out — a stable
register for a user variable via `reg_for` or an expression temporary via
`new_temp` — lies in `[4, 15]`, the pointer wraps from past `reg_end` back to
`reg_start = 4`, and expression lowering preserves the allocator invariant;
but user-written register assignments (C5) make the emitter name R1–R3. -/
theorem C9_amended_allocator_range_and_wrap (c : ParserContext) (h : CtxInv c) :
    (∀ v : String, 4 ≤ (regFor v c).1 ∧ (regFor v c).1 ≤ 15 ∧ CtxInv (regFor v c).2) ∧
    (4 ≤ (newTemp c).1 ∧ (newTemp c).1 ≤ 15 ∧ CtxInv (newTemp c).2) ∧
    (c.next_reg > 15 → (newTemp c).1 = 4) ∧
    (∀ esAddr e t ls c2, generateExprAsm esAddr e t c = .ok (ls, c2) → CtxInv c2) := by
  refine ⟨fun v => regFor_inv c h v, newTemp_inv c h, ?_, ?_⟩
  · intro hw
    unfold newTemp
    rw [if_pos (by rw [h.2.1]; omega)]
    exact h.1
  · intro esAddr e t ls c2 hok
    exact genExprAsm_inv e esAddr t c ls c2 h hok

theorem C9_amended_allocator_range_and_wrap_witness :
    4 ≤ (newTemp initCtx).1 ∧ (newTemp initCtx).1 ≤ 15 ∧ CtxInv (newTemp initCtx).2 :=
  (C9_amended_allocator_range_and_wrap initCtx
    (by refine ⟨rfl, rfl, by decide, by decide, ?_⟩; intro p hp; simp [initCtx] at hp)).2.1

end Computador
